import Mathlib

/-!
The lock-free bitset `sp::Bitset<T_Size, Byte_t>` of `Bitset.h`.

A shallow embedding of the lock-free bitset of `Bitset.h` and proofs about it.

* `bits` is `sizeof(Byte_t) * 8`, the width of one backing word; a word is a natural
  number below `2 ^ bits`.
* The backing array `m_data` is read and written through `operator[]`, which does no
  bounds check.  It is therefore modelled as a map from word index to word that is
  addressable past `T_Words`; what lies past the array is whatever the map holds there.
* The runs modelled here are the ones of a single thread: a `compare_exchange_strong`
  sees the memory exactly as the last operation of the same thread left it.
-/

namespace Bitset

/-- The words reachable from the start of `m_data`: word index to stored word. -/
abbrev Mem := Nat → Nat

/-- Every stored word is a value of `Byte_t`. -/
def WellTyped (bits : Nat) (m_data : Mem) : Prop := ∀ i, m_data i < 2 ^ bits

/-- `static constexpr size_t npos = T_Size`. -/
def npos (T_Size : Nat) : Nat := T_Size

/-- `T_Words = size_t(std::ceil(double(T_Size) / bits))`, the ceiling of the quotient. -/
def T_Words (T_Size bits : Nat) : Nat := (T_Size + bits - 1) / bits

/-- `one_ = Byte_t(1) << size_t(bits - 1)`, the word `10000...`. -/
def one_ (bits : Nat) : Nat := (1 <<< (bits - 1)) % 2 ^ bits

/-- The complement `~x` of a word, read back as a `Byte_t`. -/
def compl (bits x : Nat) : Nat := 2 ^ bits - 1 - x % 2 ^ bits

/-- `std::atomic::compare_exchange_strong(expected, desired)` on word `idx`: on success
the word becomes `desired`; on failure `expected` is replaced by the word found.
Returns the success flag, the new `expected` and the memory. -/
def compare_exchange_strong (m_data : Mem) (idx expected desired : Nat) :
    Bool × Nat × Mem :=
  if m_data idx = expected then
    (true, expected, fun i => if i = idx then desired else m_data i)
  else
    (false, m_data idx, m_data)

namespace Entry

/-- `byte_index(idx) = size_t(idx / bits)`. -/
def byte_index (bits idx : Nat) : Nat := idx / bits

/-- `word_for(byteIdx)` followed by `load()`: the word stored at `m_data[byteIdx]`. -/
def word_for (m_data : Mem) (byteIdx : Nat) : Nat := m_data byteIdx

/-- `store(wordIdx, value)`; the parameter `value` is a `Byte_t`. -/
def store (bits : Nat) (m_data : Mem) (wordIdx value : Nat) : Mem :=
  fun i => if i = wordIdx then value % 2 ^ bits else m_data i

/-- `word_index(bitIdx) = bitIdx - (bitIdx / bits) * bits`, returned as a `Byte_t`. -/
def word_index (bits bitIdx : Nat) : Nat := (bitIdx - (bitIdx / bits) * bits) % 2 ^ bits

/-- `bit_index(byteIdx, wordIdx) = size_t(byteIdx * bits) + wordIdx`; the parameter
`wordIdx` is a `Byte_t`.  The sum is the one of `size_t` as long as it stays below
`2 ^ 64`, which it does for every index of a Bitset: beyond that the source wraps and
this value does not. -/
def bit_index (bits byteIdx wordIdx : Nat) : Nat := byteIdx * bits + wordIdx % 2 ^ bits

/-- `mask_right(idx) = ~Byte_t(0) >> idx`. -/
def mask_right (bits idx : Nat) : Nat := compl bits 0 >>> idx

/-- The array after `Entry()`: `m_data()` value-initialises the `T_Words` words. -/
def Entry_default (T_Size bits : Nat) (raw : Mem) : Mem :=
  fun i => if i < T_Words T_Size bits then 0 else raw i

/-- The memory after the first `n` rounds of the loop of `init_with(def)`. -/
def init_with_loop (bits def_ : Nat) : Nat → Mem → Mem
  | 0, m_data => m_data
  | n + 1, m_data => store bits (init_with_loop bits def_ n m_data) n def_

/-- `init_with(def)`: `for (idx = 0; idx < T_Words; ++idx) word_for(idx).store(def)`. -/
def init_with (T_Size bits : Nat) (m_data : Mem) (def_ : Nat) : Mem :=
  init_with_loop bits def_ (T_Words T_Size bits) m_data

/-- The array after `Entry(bool v)`: `Entry()` then `init_with(v ? ~Byte_t(0) : Byte_t(0))`. -/
def Entry_bool (T_Size bits : Nat) (raw : Mem) (v : Bool) : Mem :=
  init_with T_Size bits (Entry_default T_Size bits raw) (if v then compl bits 0 else 0)

/-- The state `(word, entryIdx, m_data)` of the loop of `transfer(init)` after its first
`n` rounds, that is when `i = n`. -/
def transfer_loop (bits : Nat) (init : Nat → Bool) (m_data : Mem) : Nat → Nat × Nat × Mem
  | 0 => (0, 0, m_data)
  | i + 1 =>
    let (word, entryIdx, m) := transfer_loop bits init m_data i
    let word :=
      if init i then
        let bitoffset := (bits - 1) - (i % bits)
        let cbits := (1 <<< bitoffset) % 2 ^ bits
        word ||| cbits
      else word
    if (i + 1) % bits = 0 then
      (0, entryIdx + 1, store bits m entryIdx word)
    else
      (word, entryIdx, m)

/-- `transfer(init)`: the loop over `i < init.size()`, then the store of a last,
partial word when `init.size()` is no multiple of `bits`. -/
def transfer (T_Size bits : Nat) (m_data : Mem) (init : Nat → Bool) : Mem :=
  let (word, entryIdx, m) := transfer_loop bits init m_data T_Size
  if T_Size % bits ≠ 0 then store bits m entryIdx word else m

/-- The array after `Entry(const std::bitset<T_Size> &init)`: `Entry()` then
`transfer(init)`. -/
def Entry_bitset (T_Size bits : Nat) (raw : Mem) (init : Nat → Bool) : Mem :=
  transfer T_Size bits (Entry_default T_Size bits raw) init

/-- The `do ... while (!e.compare_exchange_strong(word_before, word))` loop of `set`,
run for at most `fuel` rounds. -/
def set_loop (byteIdx mask : Nat) (b : Bool) (bits : Nat) :
    Nat → Nat → Mem → Option (Bool × Mem)
  | 0, _, _ => none
  | fuel + 1, word_before, m_data =>
    let word :=
      if b then word_before ||| mask else (word_before &&& compl bits mask) % 2 ^ bits
    if word = word_before then
      some (false, m_data)
    else
      match compare_exchange_strong m_data byteIdx word_before word with
      | (true, _, m) => some (true, m)
      | (false, actual, m) => set_loop byteIdx mask b bits fuel actual m

/-- `Entry::set(bitIdx, b)`: the returned flag and the memory afterwards, or `none`
when the retry loop is still running after `fuel` rounds. -/
def set (bits fuel : Nat) (m_data : Mem) (bitIdx : Nat) (b : Bool) : Option (Bool × Mem) :=
  let byteIdx := byte_index bits bitIdx
  let offset := word_index bits bitIdx
  let mask := one_ bits >>> offset
  let word_before := word_for m_data byteIdx
  set_loop byteIdx mask b bits fuel word_before m_data

/-- `Entry::test(bitIdx)`. -/
def test (bits : Nat) (m_data : Mem) (bitIdx : Nat) : Bool :=
  let byteIdx := byte_index bits bitIdx
  let wordIdx := word_index bits bitIdx
  let mask := one_ bits >>> wordIdx
  let word := word_for m_data byteIdx
  (word &&& mask) % 2 ^ bits != 0

/-- The `for (; idx < T_Words; ++idx)` loop of `all`, with `n` rounds left. -/
def all_loop (bits test : Nat) (m_data : Mem) : Nat → Nat → Nat → Nat → Bool
  | 0, _, _, _ => true
  | n + 1, idx, wordIdx, mask =>
    let current := word_for m_data idx
    let current := current &&& mask_right bits wordIdx
    if current ≠ mask then false
    else all_loop bits test m_data n (idx + 1) 0 test

/-- `Entry::all(bitIdx, test)`; `test` is a `Byte_t`. -/
def all (T_Size bits : Nat) (m_data : Mem) (bitIdx test : Nat) : Bool :=
  let idx := byte_index bits bitIdx
  let wordIdx := word_index bits bitIdx
  let mask := test &&& mask_right bits wordIdx
  all_loop bits test m_data (T_Words T_Size bits - idx) idx wordIdx mask

/-- The `for (size_t bit = wordIdx; bit < bits; ++bit)` loop of `find_first`, with `n`
rounds left; `some` is the early `return`. -/
def find_first_for (bits : Nat) (find : Bool) (byteIdx word : Nat) : Nat → Nat → Option Nat
  | 0, _ => none
  | n + 1, bit =>
    let vmask := one_ bits >>> bit
    let cmp := if find then vmask else 0
    if (vmask &&& word) % 2 ^ bits = cmp then some (bit_index bits byteIdx bit)
    else find_first_for bits find byteIdx word n (bit + 1)

/-- The `for (; byteIdx < T_Words; ++byteIdx)` loop of `find_first`, with `n` rounds
left. -/
def find_first_loop (T_Size bits : Nat) (find : Bool) (m_data : Mem) : Nat → Nat → Nat → Nat
  | 0, _, _ => npos T_Size
  | n + 1, byteIdx, wordIdx =>
    let mask := if find then 0 else compl bits 0
    let word := word_for m_data byteIdx
    let found :=
      if mask ≠ word then find_first_for bits find byteIdx word (bits - wordIdx) wordIdx
      else none
    match found with
    | some r => r
    | none => find_first_loop T_Size bits find m_data n (byteIdx + 1) 0

/-- `Entry::find_first(bitIdx, find)`. -/
def find_first (T_Size bits : Nat) (m_data : Mem) (bitIdx : Nat) (find : Bool) : Nat :=
  let byteIdx := byte_index bits bitIdx
  let wordIdx := word_index bits bitIdx
  find_first_loop T_Size bits find m_data (T_Words T_Size bits - byteIdx) byteIdx wordIdx

end Entry

/-- What a run of `swap_first` leaves behind: the returned index, the memory, and the
word indices it accessed (loads and compare-exchanges) in order. -/
structure SwapResult where
  ret : Nat
  m_data : Mem
  touched : List Nat

namespace Entry

/-- The `for (size_t bit = wordBitStart; bit < bitMax; ++bit)` loop of `swap_first` on
the word `wordIdx`, with `n` rounds left and `word` the loaded copy.  Returns the early
`return` value if any, the memory, and the word indices compare-exchanged. -/
def swap_first_for (bits : Nat) (v : Bool) (wordIdx : Nat) :
    Nat → Nat → Nat → Mem → Option Nat × Mem × List Nat
  | 0, _, _, m_data => (none, m_data, [])
  | n + 1, bit, word, m_data =>
    let vmask := one_ bits >>> bit
    let cmp := if v then 0 else vmask
    if (vmask &&& word) % 2 ^ bits = cmp then
      let value :=
        if v then (word ||| vmask) % 2 ^ bits
        else (word &&& ((vmask ^^^ compl bits 0) % 2 ^ bits)) % 2 ^ bits
      match compare_exchange_strong m_data wordIdx word value with
      | (true, _, m) => (some (bit_index bits wordIdx bit), m, [wordIdx])
      | (false, actual, m) =>
        let (r, m2, tr) := swap_first_for bits v wordIdx n (bit + 1) actual m
        (r, m2, wordIdx :: tr)
    else swap_first_for bits v wordIdx n (bit + 1) word m_data

/-- The `while (wordIdx <= limitWord)` loop of `swap_first`, with `n` rounds left. -/
def swap_first_while (T_Size bits : Nat) (v : Bool) (limitIdx : Nat) :
    Nat → Nat → Nat → Mem → SwapResult
  | 0, _, _, m_data => ⟨T_Size, m_data, []⟩
  | n + 1, wordIdx, wordBitStart, m_data =>
    let mask := if v then compl bits 0 else 0
    let limitWord := byte_index bits limitIdx
    let word := word_for m_data wordIdx
    let inner :=
      if mask ≠ word then
        let bitMax := if wordIdx = limitWord then word_index bits limitIdx else bits
        swap_first_for bits v wordIdx (bitMax - wordBitStart) wordBitStart word m_data
      else (none, m_data, [])
    match inner with
    | (some r, m, tr) => ⟨r, m, wordIdx :: tr⟩
    | (none, m, tr) =>
      let rest := swap_first_while T_Size bits v limitIdx n (wordIdx + 1) 0 m
      ⟨rest.ret, rest.m_data, wordIdx :: (tr ++ rest.touched)⟩

/-- `Entry::swap_first(bitIdx, set, limitIdx)`. -/
def swap_first (T_Size bits : Nat) (m_data : Mem) (bitIdx : Nat) (v : Bool)
    (limitIdx : Nat) : SwapResult :=
  let wordIdx := byte_index bits bitIdx
  let wordBitStart := word_index bits bitIdx
  let limitWord := byte_index bits limitIdx
  swap_first_while T_Size bits v limitIdx (limitWord + 1 - wordIdx) wordIdx wordBitStart m_data

end Entry

/-- `Bitset()`. -/
def Bitset_default (T_Size bits : Nat) (raw : Mem) : Mem := Entry.Entry_default T_Size bits raw

/-- `Bitset(bool v)`. -/
def Bitset_bool (T_Size bits : Nat) (raw : Mem) (v : Bool) : Mem :=
  Entry.Entry_bool T_Size bits raw v

/-- `Bitset(const std::bitset<T_Size> &init)`. -/
def Bitset_bitset (T_Size bits : Nat) (raw : Mem) (init : Nat → Bool) : Mem :=
  Entry.Entry_bitset T_Size bits raw init

/-- `Bitset::set(bitIdx, b)`: the range check has an empty body, the call goes on. -/
def set (bits fuel : Nat) (m_data : Mem) (bitIdx : Nat) (b : Bool) : Option (Bool × Mem) :=
  Entry.set bits fuel m_data bitIdx b

/-- `Bitset::test(bitIdx)`. -/
def test (T_Size bits : Nat) (m_data : Mem) (bitIdx : Nat) : Bool :=
  if bitIdx ≥ T_Size then false else Entry.test bits m_data bitIdx

/-- `Bitset::all(bitIdx, test)`. -/
def all (T_Size bits : Nat) (m_data : Mem) (bitIdx : Nat) (test : Bool) : Bool :=
  if bitIdx ≥ T_Size then false
  else Entry.all T_Size bits m_data bitIdx (if test then compl bits 0 else 0)

/-- `Bitset::all(test)`. -/
def all0 (T_Size bits : Nat) (m_data : Mem) (test : Bool) : Bool :=
  all T_Size bits m_data 0 test

/-- `Bitset::find_first(bitIdx, find)`: out of range it returns `false`, that is `0`. -/
def find_first (T_Size bits : Nat) (m_data : Mem) (bitIdx : Nat) (find : Bool) : Nat :=
  if bitIdx ≥ T_Size then 0 else Entry.find_first T_Size bits m_data bitIdx find

/-- `Bitset::find_first(find)`. -/
def find_first0 (T_Size bits : Nat) (m_data : Mem) (find : Bool) : Nat :=
  find_first T_Size bits m_data 0 find

/-- `Bitset::swap_first(idx, set, limit)`. -/
def swap_first (T_Size bits : Nat) (m_data : Mem) (idx : Nat) (v : Bool) (limit : Nat) :
    SwapResult :=
  if idx ≥ T_Size then ⟨npos T_Size, m_data, []⟩
  else Entry.swap_first T_Size bits m_data idx v limit

/-- `Bitset::swap_first(idx, set)`. -/
def swap_first2 (T_Size bits : Nat) (m_data : Mem) (idx : Nat) (v : Bool) : SwapResult :=
  swap_first T_Size bits m_data idx v T_Size

/-- `Bitset::swap_first(set)`. -/
def swap_first1 (T_Size bits : Nat) (m_data : Mem) (v : Bool) : SwapResult :=
  swap_first2 T_Size bits m_data 0 v

/-- The memory after `k` successive calls of `swap_first(0, v)`, the loop of
`test_swap_first`. -/
def swap_first_run (T_Size bits : Nat) (v : Bool) (m_data : Mem) : Nat → Mem
  | 0 => m_data
  | k + 1 => (swap_first2 T_Size bits (swap_first_run T_Size bits v m_data k) 0 v).m_data

/-- The memory after `set(i, v)` for `i = 0, ..., n - 1` in turn, each call with `fuel`
rounds, the loop of `true_set` and `false_set`; `none` when one of the calls is still
running after its fuel. -/
def set_run (bits fuel : Nat) (v : Bool) (m_data : Mem) : Nat → Option Mem
  | 0 => some m_data
  | n + 1 =>
    match set_run bits fuel v m_data n with
    | none => none
    | some m =>
      match set bits fuel m n v with
      | none => none
      | some (_, m2) => some m2

/-- The string `res` of `Bitset::to_string()` after the first `n` rounds of its loop; a
`std::string` is the list of its characters and `push_back` appends one. -/
def to_string_loop (T_Size bits : Nat) (m_data : Mem) : Nat → List Char
  | 0 => []
  | i + 1 =>
    let c := if test T_Size bits m_data i then '1' else '0'
    to_string_loop T_Size bits m_data i ++ [c]

/-- `Bitset::to_string()`: the loop runs for `i < size()`. -/
def to_string (T_Size bits : Nat) (m_data : Mem) : List Char :=
  to_string_loop T_Size bits m_data T_Size

/-- The string `res` of `reverse(s)` (BitsetTest.cpp) after the first `n` rounds of
`for (size_t i = s.size(); i-- > 0;) res.push_back(s[i])`: round `n` has
`i = s.size() - 1 - n`. -/
def reverse_loop (s : List Char) : Nat → List Char
  | 0 => []
  | n + 1 => reverse_loop s n ++ [s.getD (s.length - 1 - n) '0']

/-- `reverse(s)` of BitsetTest.cpp. -/
def reverse (s : List Char) : List Char := reverse_loop s s.length

/-- Modelled from the spec: `std::bitset<N>::to_string()` of the standard library, which
is not part of the repository; it prints index `N - 1` first, so the character at
position `k` is the bit at index `N - 1 - k`. -/
def std_bitset_to_string (T_Size : Nat) (p : Nat → Bool) : List Char :=
  (List.range T_Size).map (fun k => if p (T_Size - 1 - k) then '1' else '0')

end Bitset

namespace Bitset

/-! ## Words and bits -/

theorem bits_lt_two_pow (bits : Nat) : bits < 2 ^ bits := Nat.lt_two_pow bits

theorem one_eq {bits : Nat} (h : 0 < bits) : one_ bits = 2 ^ (bits - 1) := by
  unfold one_
  rw [Nat.one_shiftLeft]
  exact Nat.mod_eq_of_lt (Nat.pow_lt_pow_right (by norm_num) (by omega))

theorem one_shiftRight {bits off : Nat} (h : off < bits) :
    one_ bits >>> off = 2 ^ (bits - 1 - off) := by
  rw [one_eq (by omega), Nat.shiftRight_eq_div_pow, Nat.pow_div (by omega) (by norm_num)]

theorem and_two_pow_eq (w k : Nat) : w &&& 2 ^ k = if w.testBit k then 2 ^ k else 0 := by
  apply Nat.eq_of_testBit_eq
  intro i
  by_cases hk : k = i
  · subst hk
    cases hw : w.testBit k <;> simp [hw]
  · cases hw : w.testBit k <;> simp [hw, Nat.testBit_two_pow, hk]

theorem compl_zero (bits : Nat) : compl bits 0 = 2 ^ bits - 1 := by
  simp [compl]

theorem word_index_eq {bits : Nat} (h : 0 < bits) (i : Nat) :
    Entry.word_index bits i = i % bits := by
  unfold Entry.word_index
  have h1 : i - i / bits * bits = i % bits := by
    have := Nat.div_add_mod i bits
    rw [Nat.mul_comm] at this
    omega
  rw [h1]
  exact Nat.mod_eq_of_lt (lt_trans (Nat.mod_lt _ h) (bits_lt_two_pow bits))

theorem test_eq_testBit {bits : Nat} (h : 0 < bits) (m : Mem) (i : Nat) :
    Entry.test bits m i = (m (i / bits)).testBit (bits - 1 - i % bits) := by
  have hlt : i % bits < bits := Nat.mod_lt _ h
  unfold Entry.test Entry.word_for Entry.byte_index
  simp only [word_index_eq h, one_shiftRight hlt, and_two_pow_eq]
  have hp : 2 ^ (bits - 1 - i % bits) < 2 ^ bits :=
    Nat.pow_lt_pow_right (by norm_num) (by omega)
  cases hb : (m (i / bits)).testBit (bits - 1 - i % bits)
  · simp
  · simp [Nat.mod_eq_of_lt hp]

theorem bit_index_eq {bits bit : Nat} (h : bit < bits) (w : Nat) :
    Entry.bit_index bits w bit = w * bits + bit := by
  unfold Entry.bit_index
  rw [Nat.mod_eq_of_lt (lt_trans h (bits_lt_two_pow bits))]

theorem two_pow_lt_word {bits o : Nat} (h : o < bits) : 2 ^ (bits - 1 - o) < 2 ^ bits :=
  Nat.pow_lt_pow_right (by norm_num) (by omega)

theorem testBit_high {bits w k : Nat} (hw : w < 2 ^ bits) (hk : bits ≤ k) :
    w.testBit k = false :=
  Nat.testBit_lt_two_pow (lt_of_lt_of_le hw (Nat.pow_le_pow_right (by norm_num) hk))

/-- The test `Byte_t(vmask & word) == cmp` of the scanning loops holds exactly when the
bit under `vmask` has the value `b`; `cmp` is `vmask` for `b = true` and `0` otherwise. -/
theorem vmask_cmp_iff {bits o : Nat} (h : o < bits) (w : Nat) (b : Bool) :
    ((2 ^ (bits - 1 - o) &&& w) % 2 ^ bits = if b then 2 ^ (bits - 1 - o) else 0) ↔
      w.testBit (bits - 1 - o) = b := by
  rw [Nat.and_comm, and_two_pow_eq]
  have hp := two_pow_lt_word h
  have hpos : 0 < 2 ^ (bits - 1 - o) := Nat.two_pow_pos _
  cases hb : w.testBit (bits - 1 - o) <;> cases b <;> simp [Nat.mod_eq_of_lt hp]
  omega

/-- The word that `swap_first` hands to the compare-exchange: bit `o` is `v`, the other
bits are the ones of `w`. -/
theorem swap_value_spec {bits o w : Nat} (h : o < bits) (hw : w < 2 ^ bits) (v : Bool) :
    (if v then (w ||| 2 ^ (bits - 1 - o)) % 2 ^ bits
      else (w &&& ((2 ^ (bits - 1 - o) ^^^ compl bits 0) % 2 ^ bits)) % 2 ^ bits) < 2 ^ bits ∧
    ∀ k, (if v then (w ||| 2 ^ (bits - 1 - o)) % 2 ^ bits
      else (w &&& ((2 ^ (bits - 1 - o) ^^^ compl bits 0) % 2 ^ bits)) % 2 ^ bits).testBit k =
      if k = bits - 1 - o then v else w.testBit k := by
  have hpos : 0 < 2 ^ bits := Nat.two_pow_pos _
  refine ⟨by cases v <;> exact Nat.mod_lt _ hpos, ?_⟩
  intro k
  by_cases hk : k < bits
  · cases v
    · simp only [Bool.false_eq_true, if_false, Nat.testBit_mod_two_pow, Nat.testBit_and,
        Nat.testBit_xor, compl_zero, Nat.testBit_two_pow_sub_one, Nat.testBit_two_pow, hk,
        decide_True, Bool.true_and]
      by_cases hko : k = bits - 1 - o
      · simp [hko]
      · have : ¬ bits - 1 - o = k := fun h => hko h.symm
        simp [hko, this]
    · simp only [if_true, Nat.testBit_mod_two_pow, Nat.testBit_or, Nat.testBit_two_pow, hk,
        decide_True, Bool.true_and]
      by_cases hko : k = bits - 1 - o
      · simp [hko]
      · have : ¬ bits - 1 - o = k := fun h => hko h.symm
        simp [hko, this]
  · have hne : k ≠ bits - 1 - o := by omega
    have hwk : w.testBit k = false := testBit_high hw (by omega)
    cases v <;> simp [Nat.testBit_mod_two_pow, hk, hne, hwk]

/-! ## `swap_first` -/

/-- The inner loop of `swap_first` on a word just loaded: either no bit of the scanned
offsets differs from `v` and nothing happens, or the first such offset `o` is claimed:
the loop returns its index, bit `o` of the word becomes `v` and nothing else changes. -/
theorem swap_first_for_spec {bits : Nat} (v : Bool) (w : Nat) (m : Mem)
    (hw : m w < 2 ^ bits) :
    ∀ n bit, bit + n ≤ bits →
      (Entry.swap_first_for bits v w n bit (m w) m = (none, m, []) ∧
        ∀ o, bit ≤ o → o < bit + n → (m w).testBit (bits - 1 - o) = v) ∨
      ∃ o, bit ≤ o ∧ o < bit + n ∧ (m w).testBit (bits - 1 - o) = !v ∧
        (∀ p, bit ≤ p → p < o → (m w).testBit (bits - 1 - p) = v) ∧
        ∃ m2, Entry.swap_first_for bits v w n bit (m w) m = (some (w * bits + o), m2, [w]) ∧
          (∀ j, j ≠ w → m2 j = m j) ∧ m2 w < 2 ^ bits ∧
          ∀ k, (m2 w).testBit k = if k = bits - 1 - o then v else (m w).testBit k := by
  intro n
  induction n with
  | zero =>
    intro bit _
    left
    exact ⟨rfl, fun o h1 h2 => by omega⟩
  | succ n ih =>
    intro bit hle
    have hbit : bit < bits := by omega
    rw [Entry.swap_first_for]
    simp only [one_shiftRight hbit]
    have hc := vmask_cmp_iff hbit (m w) (!v)
    have hcmp : (if v then 0 else 2 ^ (bits - 1 - bit)) =
        (if (!v) = true then 2 ^ (bits - 1 - bit) else 0) := by cases v <;> simp
    rw [hcmp]
    by_cases hb : (m w).testBit (bits - 1 - bit) = !v
    · right
      rw [if_pos (hc.mpr hb)]
      refine ⟨bit, le_refl _, by omega, hb, fun p h1 h2 => by omega, ?_⟩
      have hsv := swap_value_spec hbit hw v
      simp only [compare_exchange_strong, if_true, bit_index_eq hbit]
      refine ⟨_, rfl, ?_, ?_, ?_⟩
      · intro j hj
        simp [hj]
      · simpa using hsv.1
      · simpa using hsv.2
    · rw [if_neg (fun h => hb (hc.mp h))]
      have hbv : (m w).testBit (bits - 1 - bit) = v := by
        cases hx : (m w).testBit (bits - 1 - bit) <;> cases v <;> simp_all
      rcases ih (bit + 1) (by omega) with ⟨h1, h2⟩ | ⟨o, h1, h2, h3, h4, h5⟩
      · left
        refine ⟨h1, fun o ho1 ho2 => ?_⟩
        by_cases hob : o = bit
        · rw [hob]; exact hbv
        · exact h2 o (by omega) (by omega)
      · right
        refine ⟨o, by omega, by omega, h3, fun p hp1 hp2 => ?_, h5⟩
        by_cases hpb : p = bit
        · rw [hpb]; exact hbv
        · exact h4 p (by omega) hp2

/-- A word equal to the skip mask of `swap_first` has every bit equal to `v`. -/
theorem skip_word_bits {bits : Nat} (v : Bool) (w : Nat)
    (h : (if v then compl bits 0 else 0) = w) :
    ∀ o, o < bits → w.testBit (bits - 1 - o) = v := by
  intro o ho
  subst h
  cases v
  · simp
  · simp only [if_true, compl_zero, Nat.testBit_two_pow_sub_one]
    exact decide_eq_true (by omega)

/-- One round of the outer loop of `swap_first` up to the `match`: the skip test and
the scan of the offsets `[start, bitMax)` of word `w`. -/
theorem swap_first_word_spec {bits : Nat} (v : Bool) (w start bitMax : Nat) (m : Mem)
    (hw : m w < 2 ^ bits) (hmax : bitMax ≤ bits) :
    ((if (if v then compl bits 0 else 0) ≠ Entry.word_for m w then
          Entry.swap_first_for bits v w (bitMax - start) start (Entry.word_for m w) m
        else (none, m, [])) = (none, m, []) ∧
        ∀ o, start ≤ o → o < bitMax → (m w).testBit (bits - 1 - o) = v) ∨
      ∃ o, start ≤ o ∧ o < bitMax ∧ (m w).testBit (bits - 1 - o) = !v ∧
        (∀ p, start ≤ p → p < o → (m w).testBit (bits - 1 - p) = v) ∧
        ∃ m2, (if (if v then compl bits 0 else 0) ≠ Entry.word_for m w then
              Entry.swap_first_for bits v w (bitMax - start) start (Entry.word_for m w) m
            else (none, m, [])) = (some (w * bits + o), m2, [w]) ∧
          (∀ j, j ≠ w → m2 j = m j) ∧ m2 w < 2 ^ bits ∧
          ∀ k, (m2 w).testBit k = if k = bits - 1 - o then v else (m w).testBit k := by
  unfold Entry.word_for
  by_cases hskip : (if v then compl bits 0 else 0) = m w
  · left
    rw [if_neg (not_not.mpr hskip)]
    exact ⟨rfl, fun o _ ho => skip_word_bits v (m w) hskip o (by omega)⟩
  · rw [if_pos hskip]
    by_cases hs : start ≤ bitMax
    · rcases swap_first_for_spec v w m hw (bitMax - start) start (by omega) with
        ⟨h1, h2⟩ | ⟨o, h1, h2, h3, h4, h5⟩
      · left
        exact ⟨h1, fun o ho1 ho2 => h2 o ho1 (by omega)⟩
      · right
        exact ⟨o, h1, by omega, h3, h4, h5⟩
    · left
      have h0 : bitMax - start = 0 := by omega
      rw [h0]
      exact ⟨rfl, fun o ho1 ho2 => by omega⟩

theorem div_eq_of_bounds (bits w j : Nat) (h1 : w * bits ≤ j)
    (h2 : j < w * bits + bits) : j / bits = w ∧ j % bits = j - w * bits := by
  have hb : 0 < bits := by omega
  have hd : j / bits = w := by
    apply Nat.div_eq_of_lt_le
    · exact h1
    · rw [Nat.succ_mul]; exact h2
  have := Nat.div_add_mod j bits
  rw [hd, Nat.mul_comm] at this
  exact ⟨hd, by omega⟩

theorem decomp {bits : Nat} (hb : 0 < bits) (j : Nat) :
    j = j / bits * bits + j % bits ∧ j % bits < bits := by
  have := Nat.div_add_mod j bits
  rw [Nat.mul_comm] at this
  exact ⟨this.symm, Nat.mod_lt _ hb⟩

/-- Reading a bit after one word got one of its bits replaced. -/
theorem test_after_flip {bits : Nat} (hb : 0 < bits) (m m2 : Mem) (w o : Nat) (v : Bool)
    (ho : o < bits) (hframe : ∀ j, j ≠ w → m2 j = m j)
    (hbits : ∀ k, (m2 w).testBit k = if k = bits - 1 - o then v else (m w).testBit k) :
    ∀ k, Entry.test bits m2 k = if k = w * bits + o then v else Entry.test bits m k := by
  intro k
  rw [test_eq_testBit hb, test_eq_testBit hb]
  obtain ⟨hk1, hk2⟩ := decomp hb k
  by_cases hkw : k / bits = w
  · rw [hkw, hbits]
    rw [hkw] at hk1
    by_cases hko : k % bits = o
    · rw [if_pos (by omega), if_pos (by omega)]
    · rw [if_neg (by omega), if_neg (by omega)]
  · rw [hframe _ hkw]
    have : k ≠ w * bits + o := by
      intro h
      apply hkw
      exact (div_eq_of_bounds bits w k (by omega) (by omega)).1
    rw [if_neg this]

theorem wellTyped_after_flip {bits : Nat} (m m2 : Mem) (w : Nat) (hm : WellTyped bits m)
    (hframe : ∀ j, j ≠ w → m2 j = m j) (hw : m2 w < 2 ^ bits) : WellTyped bits m2 := by
  intro i
  by_cases hi : i = w
  · rw [hi]; exact hw
  · rw [hframe i hi]; exact hm i

/-- The outer loop of `swap_first` started on word `wIdx` at offset `start` with all
the rounds it needs: it returns `T_Size` and leaves the memory alone when no bit of
`[wIdx * bits + start, limit)` differs from `v`, and otherwise claims the first such
bit. -/
theorem swap_first_while_spec {bits : Nat} (hb : 0 < bits) (T_Size : Nat) (v : Bool)
    (limit : Nat) :
    ∀ n wIdx start m, WellTyped bits m → start < bits → n = limit / bits + 1 - wIdx →
      ((Entry.swap_first_while T_Size bits v limit n wIdx start m).ret = T_Size ∧
        (Entry.swap_first_while T_Size bits v limit n wIdx start m).m_data = m ∧
        (wIdx ≤ limit / bits →
          limit / bits ∈ (Entry.swap_first_while T_Size bits v limit n wIdx start m).touched) ∧
        ∀ j, wIdx * bits + start ≤ j → j < limit → Entry.test bits m j = v) ∨
      ∃ j, wIdx * bits + start ≤ j ∧ j < limit ∧ Entry.test bits m j = (!v) ∧
        (∀ k, wIdx * bits + start ≤ k → k < j → Entry.test bits m k = v) ∧
        (Entry.swap_first_while T_Size bits v limit n wIdx start m).ret = j ∧
        WellTyped bits (Entry.swap_first_while T_Size bits v limit n wIdx start m).m_data ∧
        ∀ k, Entry.test bits (Entry.swap_first_while T_Size bits v limit n wIdx start m).m_data k
          = if k = j then v else Entry.test bits m k := by
  intro n
  obtain ⟨hL1, hL2⟩ := decomp hb limit
  induction n with
  | zero =>
    intro wIdx start m _ _ hn
    left
    refine ⟨rfl, rfl, fun h => by omega, fun j h1 h2 => ?_⟩
    have : (limit / bits + 1) * bits ≤ wIdx * bits := Nat.mul_le_mul_right _ (by omega)
    rw [Nat.succ_mul] at this
    omega
  | succ n ih =>
    intro wIdx start m hm hs hn
    have hwle : wIdx ≤ limit / bits := by omega
    have hmax : (if wIdx = Entry.byte_index bits limit then Entry.word_index bits limit
        else bits) ≤ bits := by
      split
      · rw [word_index_eq hb]; omega
      · exact le_refl _
    have hstep := swap_first_word_spec v wIdx start _ m (hm wIdx) hmax
    have hbm : ∀ o, o < (if wIdx = Entry.byte_index bits limit then
        Entry.word_index bits limit else bits) → wIdx * bits + o < limit := by
      intro o ho
      unfold Entry.byte_index at ho
      rw [word_index_eq hb] at ho
      split at ho
      · rename_i h; rw [← h] at hL1; omega
      · rename_i h
        have : (wIdx + 1) * bits ≤ limit / bits * bits := Nat.mul_le_mul_right _ (by omega)
        rw [Nat.succ_mul] at this
        omega
    have hmb : ∀ j, wIdx * bits + start ≤ j → j < limit → j < wIdx * bits + bits →
        j - wIdx * bits < (if wIdx = Entry.byte_index bits limit then
          Entry.word_index bits limit else bits) := by
      intro j h1 h2 h3
      unfold Entry.byte_index
      rw [word_index_eq hb]
      split
      · rename_i h; rw [← h] at hL1; omega
      · omega
    rw [Entry.swap_first_while]
    simp only []
    split
    · rename_i r m2 tr heq
      rcases hstep with ⟨h1, _⟩ | ⟨o, h1, h2, h3, h4, m3, h5, h6, h7, h8⟩
      · rw [h1] at heq; simp at heq
      · rw [h5] at heq
        simp only [Prod.mk.injEq, Option.some.injEq] at heq
        obtain ⟨hr, hm2, _⟩ := heq
        subst hr hm2
        have hob : o < bits := lt_of_lt_of_le h2 hmax
        right
        refine ⟨wIdx * bits + o, by omega, hbm o h2, ?_, ?_, rfl, ?_, ?_⟩
        · rw [test_eq_testBit hb]
          obtain ⟨e1, e2⟩ := div_eq_of_bounds bits wIdx (wIdx * bits + o) (by omega) (by omega)
          rw [e1, e2]
          have : wIdx * bits + o - wIdx * bits = o := by omega
          rw [this]; exact h3
        · intro k hk1 hk2
          rw [test_eq_testBit hb]
          obtain ⟨e1, e2⟩ := div_eq_of_bounds bits wIdx k (by omega) (by omega)
          rw [e1, e2]
          exact h4 _ (by omega) (by omega)
        · exact wellTyped_after_flip m m3 wIdx hm h6 h7
        · exact test_after_flip hb m m3 wIdx o v hob h6 h8
    · rename_i m2 tr heq
      rcases hstep with ⟨h1, h2⟩ | ⟨o, _, _, _, _, m3, h5, _⟩
      · rw [h1] at heq
        simp only [Prod.mk.injEq, true_and] at heq
        obtain ⟨hm2, _⟩ := heq
        subst hm2
        have hword : ∀ j, wIdx * bits + start ≤ j → j < limit → j < wIdx * bits + bits →
            Entry.test bits m j = v := by
          intro j j1 j2 j3
          rw [test_eq_testBit hb]
          obtain ⟨e1, e2⟩ := div_eq_of_bounds bits wIdx j (by omega) j3
          rw [e1, e2]
          exact h2 _ (by omega) (hmb j j1 j2 j3)
        rcases ih (wIdx + 1) 0 m hm hb (by omega) with
          ⟨i1, i2, it, i3⟩ | ⟨j, i1, i2, i3, i4, i5, i6, i7⟩
        · left
          refine ⟨i1, i2, fun _ => ?_, fun j j1 j2 => ?_⟩
          · by_cases hlw : wIdx = limit / bits
            · rw [← hlw]; exact List.mem_cons_self _ _
            · exact List.mem_cons_of_mem _ (List.mem_append_right _ (it (by omega)))
          by_cases hj : j < wIdx * bits + bits
          · exact hword j j1 j2 hj
          · exact i3 j (by rw [Nat.succ_mul]; omega) j2
        · right
          rw [Nat.succ_mul] at i1 i4
          refine ⟨j, by omega, i2, i3, fun k k1 k2 => ?_, i5, i6, i7⟩
          by_cases hk : k < wIdx * bits + bits
          · exact hword k k1 (by omega) hk
          · exact i4 k (by omega) k2
      · rw [h5] at heq; simp at heq

theorem wellTyped_const {bits c : Nat} (h : c < 2 ^ bits) : WellTyped bits (fun _ => c) :=
  fun _ => h

theorem test_in_range {T_Size : Nat} (bits : Nat) (m : Mem) {j : Nat} (h : j < T_Size) :
    test T_Size bits m j = Entry.test bits m j := by
  unfold test
  rw [if_neg (by omega)]

/-- `Bitset::swap_first(idx, set, limit)` with `idx < T_Size`: either it returns
`T_Size`, the memory is the one before and no bit of `[idx, limit)` differs from `v`; or
it returns the first bit of `[idx, limit)` that differs and that bit alone is changed. -/
theorem swap_first_spec {bits : Nat} (hb : 0 < bits) (T_Size : Nat) (m : Mem) (v : Bool)
    (idx limit : Nat) (hm : WellTyped bits m) (hidx : idx < T_Size) :
    ((swap_first T_Size bits m idx v limit).ret = T_Size ∧
        (swap_first T_Size bits m idx v limit).m_data = m ∧
        (idx / bits ≤ limit / bits →
          limit / bits ∈ (swap_first T_Size bits m idx v limit).touched) ∧
        ∀ j, idx ≤ j → j < limit → Entry.test bits m j = v) ∨
      ∃ j, idx ≤ j ∧ j < limit ∧ Entry.test bits m j = (!v) ∧
        (∀ k, idx ≤ k → k < j → Entry.test bits m k = v) ∧
        (swap_first T_Size bits m idx v limit).ret = j ∧
        WellTyped bits (swap_first T_Size bits m idx v limit).m_data ∧
        ∀ k, Entry.test bits (swap_first T_Size bits m idx v limit).m_data k
          = if k = j then v else Entry.test bits m k := by
  have hsw : swap_first T_Size bits m idx v limit =
      Entry.swap_first_while T_Size bits v limit (limit / bits + 1 - idx / bits) (idx / bits)
        (idx % bits) m := by
    unfold swap_first Entry.swap_first Entry.byte_index
    rw [if_neg (by omega), word_index_eq hb]
  obtain ⟨h1, h2⟩ := decomp hb idx
  have := swap_first_while_spec hb T_Size v limit (limit / bits + 1 - idx / bits) (idx / bits)
    (idx % bits) m hm h2 rfl
  rw [← h1, ← hsw] at this
  exact this

/-- C1: for `from < N` and `limit ≤ N`, a `swap_first(from, v, limit)` run without
interference returns the smallest index of `[from, limit)` whose bit differs from `v`,
and returns `N` when that range has no such bit (as when `limit ≤ from`). -/
theorem swap_first_returns_first_differing (T_Size bits : Nat) (m : Mem) (v : Bool)
    (from_ limit : Nat) (hb : 0 < bits) (hm : WellTyped bits m) (hfrom : from_ < T_Size)
    (hlimit : limit ≤ T_Size) :
    (∀ j, from_ ≤ j → j < limit → test T_Size bits m j ≠ v →
        (∀ k, from_ ≤ k → k < j → test T_Size bits m k = v) →
        (swap_first T_Size bits m from_ v limit).ret = j) ∧
      ((∀ j, from_ ≤ j → j < limit → test T_Size bits m j = v) →
        (swap_first T_Size bits m from_ v limit).ret = T_Size) := by
  rcases swap_first_spec hb T_Size m v from_ limit hm hfrom with
    ⟨h1, _, _, h3⟩ | ⟨i, h1, h2, h3, h4, h5, _⟩
  · refine ⟨fun j j1 j2 j3 _ => ?_, fun _ => h1⟩
    rw [test_in_range bits m (by omega)] at j3
    exact absurd (h3 j j1 j2) j3
  · refine ⟨fun j j1 j2 j3 j4 => ?_, fun hall => ?_⟩
    · rw [h5]
      rw [test_in_range bits m (by omega)] at j3
      rcases Nat.lt_trichotomy i j with hlt | heq | hgt
      · have := j4 i h1 hlt
        rw [test_in_range bits m (by omega), h3] at this
        cases v <;> simp at this
      · exact heq
      · exact absurd (h4 j j1 hgt) j3
    · have := hall i h1 h2
      rw [test_in_range bits m (by omega), h3] at this
      cases v <;> simp at this

theorem swap_first_returns_first_differing_witness :
    0 < 8 ∧ WellTyped 8 (fun _ => 0) ∧ 3 < 16 ∧ 12 ≤ 16 ∧
      (swap_first 16 8 (fun _ => 0) 3 true 12).ret = 3 ∧
      ((∀ j, 3 ≤ j → j < 12 → test 16 8 (fun _ => 255) j = true) →
        (swap_first 16 8 (fun _ => 255) 3 true 12).ret = 16) :=
  ⟨by decide, wellTyped_const (by decide), by decide, by decide,
    (swap_first_returns_first_differing 16 8 (fun _ => 0) true 3 12 (by decide)
      (wellTyped_const (by decide)) (by decide) (by decide)).1 3 (by decide) (by decide) (by decide)
      (fun k h1 h2 => by omega),
    (swap_first_returns_first_differing 16 8 (fun _ => 255) true 3 12 (by decide)
      (wellTyped_const (by decide)) (by decide) (by decide)).2⟩

/-- C2: for `from < N` and `limit ≤ N`, when `swap_first(from, v, limit)` returns an
index `r < N`, bit `r` is `v` afterwards and every other bit below `N` is as before; when
it returns `N`, all the words are the ones from before the call. -/
theorem swap_first_state_effect (T_Size bits : Nat) (m : Mem) (v : Bool)
    (from_ limit : Nat) (hb : 0 < bits) (hm : WellTyped bits m) (hfrom : from_ < T_Size)
    (hlimit : limit ≤ T_Size) :
    ((swap_first T_Size bits m from_ v limit).ret < T_Size →
        test T_Size bits (swap_first T_Size bits m from_ v limit).m_data
            (swap_first T_Size bits m from_ v limit).ret = v ∧
          ∀ k, k ≠ (swap_first T_Size bits m from_ v limit).ret → k < T_Size →
            test T_Size bits (swap_first T_Size bits m from_ v limit).m_data k =
              test T_Size bits m k) ∧
      ((swap_first T_Size bits m from_ v limit).ret = T_Size →
        (swap_first T_Size bits m from_ v limit).m_data = m) := by
  rcases swap_first_spec hb T_Size m v from_ limit hm hfrom with
    ⟨h1, h2, _, _⟩ | ⟨i, _, h2, _, _, h5, _, h7⟩
  · exact ⟨fun h => by omega, fun _ => h2⟩
  · refine ⟨fun _ => ⟨?_, fun k k1 k2 => ?_⟩, fun h => by omega⟩
    · rw [h5, test_in_range bits _ (by omega), h7, if_pos rfl]
    · rw [h5] at k1
      rw [test_in_range bits _ k2, test_in_range bits _ k2, h7, if_neg k1]

theorem swap_first_state_effect_witness :
    0 < 8 ∧ WellTyped 8 (fun _ => 0) ∧ 3 < 16 ∧ 12 ≤ 16 ∧
      ((swap_first 16 8 (fun _ => 0) 3 true 12).ret < 16 →
        test 16 8 (swap_first 16 8 (fun _ => 0) 3 true 12).m_data
            (swap_first 16 8 (fun _ => 0) 3 true 12).ret = true ∧
          ∀ k, k ≠ (swap_first 16 8 (fun _ => 0) 3 true 12).ret → k < 16 →
            test 16 8 (swap_first 16 8 (fun _ => 0) 3 true 12).m_data k =
              test 16 8 (fun _ => 0) k) ∧
      (swap_first 16 8 (fun _ => 0) 3 true 12).ret < 16 :=
  ⟨by decide, wellTyped_const (by decide), by decide, by decide,
    (swap_first_state_effect 16 8 (fun _ => 0) true 3 12 (by decide) (wellTyped_const (by decide))
      (by decide) (by decide)).1, by decide⟩

/-! ## `find_first` -/

theorem bool_eq_not_of_ne {a b : Bool} (h : ¬ a = b) : a = !b := by
  cases a <;> cases b <;> simp_all

theorem words_mul_bits {T_Size bits : Nat} (hb : 0 < bits) (hdvd : bits ∣ T_Size) :
    T_Words T_Size bits * bits = T_Size := by
  obtain ⟨q, rfl⟩ := hdvd
  unfold T_Words
  have : (bits * q + bits - 1) / bits = q := by
    apply Nat.div_eq_of_lt_le
    · rw [Nat.mul_comm]; omega
    · rw [Nat.succ_mul, Nat.mul_comm]; omega
  rw [this, Nat.mul_comm]

/-- The bit loop of `find_first` on the word `w`: `none` when no scanned offset holds
`find`, otherwise the index of the first one that does. -/
theorem find_first_for_spec {bits : Nat} (find : Bool) (byteIdx w : Nat) :
    ∀ n bit, bit + n ≤ bits →
      (Entry.find_first_for bits find byteIdx w n bit = none ∧
        ∀ o, bit ≤ o → o < bit + n → w.testBit (bits - 1 - o) = !find) ∨
      ∃ o, bit ≤ o ∧ o < bit + n ∧ w.testBit (bits - 1 - o) = find ∧
        (∀ p, bit ≤ p → p < o → w.testBit (bits - 1 - p) = !find) ∧
        Entry.find_first_for bits find byteIdx w n bit = some (byteIdx * bits + o) := by
  intro n
  induction n with
  | zero =>
    intro bit _
    left
    exact ⟨rfl, fun o h1 h2 => by omega⟩
  | succ n ih =>
    intro bit hle
    have hbit : bit < bits := by omega
    rw [Entry.find_first_for]
    simp only [one_shiftRight hbit]
    have hc := vmask_cmp_iff hbit w find
    by_cases hb : w.testBit (bits - 1 - bit) = find
    · right
      rw [if_pos (hc.mpr hb), bit_index_eq hbit]
      exact ⟨bit, le_refl _, by omega, hb, fun p h1 h2 => by omega, rfl⟩
    · rw [if_neg (fun h => hb (hc.mp h))]
      have hbv := bool_eq_not_of_ne hb
      rcases ih (bit + 1) (by omega) with ⟨h1, h2⟩ | ⟨o, h1, h2, h3, h4, h5⟩
      · left
        refine ⟨h1, fun o ho1 ho2 => ?_⟩
        by_cases hob : o = bit
        · rw [hob]; exact hbv
        · exact h2 o (by omega) (by omega)
      · right
        refine ⟨o, by omega, by omega, h3, fun p hp1 hp2 => ?_, h5⟩
        by_cases hpb : p = bit
        · rw [hpb]; exact hbv
        · exact h4 p (by omega) hp2

/-- The word loop of `find_first` started on word `byteIdx` at offset `start`: it
returns `npos` when no bit from there to the end of the last word holds `find`, and
otherwise the index of the first bit that does. -/
theorem find_first_loop_spec {bits : Nat} (hb : 0 < bits) (T_Size : Nat) (find : Bool)
    (m : Mem) :
    ∀ n byteIdx start, start < bits → n = T_Words T_Size bits - byteIdx →
      (Entry.find_first_loop T_Size bits find m n byteIdx start = T_Size ∧
        ∀ j, byteIdx * bits + start ≤ j → j < T_Words T_Size bits * bits →
          Entry.test bits m j = !find) ∨
      ∃ j, byteIdx * bits + start ≤ j ∧ j < T_Words T_Size bits * bits ∧
        Entry.test bits m j = find ∧
        (∀ k, byteIdx * bits + start ≤ k → k < j → Entry.test bits m k = !find) ∧
        Entry.find_first_loop T_Size bits find m n byteIdx start = j := by
  intro n
  induction n with
  | zero =>
    intro byteIdx start _ hn
    left
    refine ⟨rfl, fun j h1 h2 => ?_⟩
    have : T_Words T_Size bits * bits ≤ byteIdx * bits := Nat.mul_le_mul_right _ (by omega)
    omega
  | succ n ih =>
    intro byteIdx start hs hn
    have hlast : (byteIdx + 1) * bits ≤ T_Words T_Size bits * bits :=
      Nat.mul_le_mul_right _ (by omega)
    rw [Nat.succ_mul] at hlast
    have hstep : ((if (if find then 0 else compl bits 0) ≠ Entry.word_for m byteIdx then
          Entry.find_first_for bits find byteIdx (Entry.word_for m byteIdx) (bits - start) start
        else none) = none ∧
        ∀ o, start ≤ o → o < bits → (m byteIdx).testBit (bits - 1 - o) = !find) ∨
      ∃ o, start ≤ o ∧ o < bits ∧ (m byteIdx).testBit (bits - 1 - o) = find ∧
        (∀ p, start ≤ p → p < o → (m byteIdx).testBit (bits - 1 - p) = !find) ∧
        (if (if find then 0 else compl bits 0) ≠ Entry.word_for m byteIdx then
          Entry.find_first_for bits find byteIdx (Entry.word_for m byteIdx) (bits - start) start
        else none) = some (byteIdx * bits + o) := by
      unfold Entry.word_for
      by_cases hskip : (if find then 0 else compl bits 0) = m byteIdx
      · left
        rw [if_neg (not_not.mpr hskip)]
        have hskip2 : (if (!find) = true then compl bits 0 else 0) = m byteIdx := by
          rw [← hskip]; cases find <;> simp
        exact ⟨rfl, fun o _ ho => skip_word_bits (!find) (m byteIdx) hskip2 o ho⟩
      · rw [if_pos hskip]
        have hfit : start + (bits - start) ≤ bits := by omega
        rcases find_first_for_spec find byteIdx (m byteIdx) (bits - start) start hfit
          with ⟨h1, h2⟩ | ⟨o, h1, h2, h3, h4, h5⟩
        · left
          exact ⟨h1, fun o ho1 ho2 => h2 o ho1 (by omega)⟩
        · right
          exact ⟨o, h1, by omega, h3, h4, h5⟩
    rw [Entry.find_first_loop]
    split
    · rename_i r heq
      rcases hstep with ⟨h1, _⟩ | ⟨o, h1, h2, h3, h4, h5⟩
      · rw [h1] at heq; simp at heq
      · rw [h5] at heq
        simp only [Option.some.injEq] at heq
        subst heq
        right
        refine ⟨byteIdx * bits + o, by omega, by omega, ?_, ?_, rfl⟩
        · rw [test_eq_testBit hb]
          obtain ⟨e1, e2⟩ :=
            div_eq_of_bounds bits byteIdx (byteIdx * bits + o) (by omega) (by omega)
          rw [e1, e2]
          have : byteIdx * bits + o - byteIdx * bits = o := by omega
          rw [this]; exact h3
        · intro k hk1 hk2
          rw [test_eq_testBit hb]
          obtain ⟨e1, e2⟩ := div_eq_of_bounds bits byteIdx k (by omega) (by omega)
          rw [e1, e2]
          exact h4 _ (by omega) (by omega)
    · rename_i heq
      rcases hstep with ⟨_, h2⟩ | ⟨o, _, _, _, _, h5⟩
      · have hword : ∀ j, byteIdx * bits + start ≤ j → j < byteIdx * bits + bits →
            Entry.test bits m j = !find := by
          intro j j1 j3
          rw [test_eq_testBit hb]
          obtain ⟨e1, e2⟩ := div_eq_of_bounds bits byteIdx j (by omega) j3
          rw [e1, e2]
          exact h2 _ (by omega) (by omega)
        rcases ih (byteIdx + 1) 0 hb (by omega) with ⟨i1, i3⟩ | ⟨j, i1, i2, i3, i4, i5⟩
        · left
          refine ⟨i1, fun j j1 j2 => ?_⟩
          by_cases hj : j < byteIdx * bits + bits
          · exact hword j j1 hj
          · exact i3 j (by rw [Nat.succ_mul]; omega) j2
        · right
          rw [Nat.succ_mul] at i1 i4
          refine ⟨j, by omega, i2, i3, fun k k1 k2 => ?_, i5⟩
          by_cases hk : k < byteIdx * bits + bits
          · exact hword k k1 hk
          · exact i4 k (by omega) k2
      · rw [h5] at heq; simp at heq

/-- `Bitset::find_first(idx, find)` with `idx < T_Size` and `bits` dividing `T_Size`:
`npos` when no bit of `[idx, T_Size)` holds `find`, else the first one that does. -/
theorem find_first_spec {bits : Nat} (hb : 0 < bits) (T_Size : Nat) (m : Mem) (find : Bool)
    (idx : Nat) (hdvd : bits ∣ T_Size) (hidx : idx < T_Size) :
    (find_first T_Size bits m idx find = T_Size ∧
        ∀ j, idx ≤ j → j < T_Size → Entry.test bits m j = !find) ∨
      ∃ j, idx ≤ j ∧ j < T_Size ∧ Entry.test bits m j = find ∧
        (∀ k, idx ≤ k → k < j → Entry.test bits m k = !find) ∧
        find_first T_Size bits m idx find = j := by
  have hff : find_first T_Size bits m idx find =
      Entry.find_first_loop T_Size bits find m (T_Words T_Size bits - idx / bits) (idx / bits)
        (idx % bits) := by
    unfold find_first Entry.find_first Entry.byte_index
    rw [if_neg (by omega), word_index_eq hb]
  obtain ⟨h1, h2⟩ := decomp hb idx
  have := find_first_loop_spec hb T_Size find m (T_Words T_Size bits - idx / bits) (idx / bits)
    (idx % bits) h2 rfl
  rw [← h1, ← hff, words_mul_bits hb hdvd] at this
  exact this

/-- C3: with `B` dividing `N` and `from < N`, `find_first(from, v)` returns the
smallest index `j` of `[from, N)` with `test(j) == v`, and `npos = N` when there is
none; `find_first(v)` is `find_first(0, v)`. -/
theorem find_first_correct (T_Size bits : Nat) (m : Mem) (v : Bool) (from_ : Nat)
    (hb : 0 < bits) (hdvd : bits ∣ T_Size) (hfrom : from_ < T_Size) :
    (∀ j, from_ ≤ j → j < T_Size → test T_Size bits m j = v →
        (∀ k, from_ ≤ k → k < j → test T_Size bits m k ≠ v) →
        find_first T_Size bits m from_ v = j) ∧
      ((∀ j, from_ ≤ j → j < T_Size → test T_Size bits m j ≠ v) →
        find_first T_Size bits m from_ v = npos T_Size) ∧
      find_first0 T_Size bits m v = find_first T_Size bits m 0 v := by
  refine ⟨?_, ?_, rfl⟩
  · intro j j1 j2 j3 j4
    rw [test_in_range bits m j2] at j3
    rcases find_first_spec hb T_Size m v from_ hdvd hfrom with
      ⟨_, h3⟩ | ⟨i, h1, h2, h3, h4, h5⟩
    · have := h3 j j1 j2
      rw [j3] at this
      cases v <;> simp at this
    · rw [h5]
      rcases Nat.lt_trichotomy i j with hlt | heq | hgt
      · have := j4 i h1 hlt
        rw [test_in_range bits m h2] at this
        exact absurd h3 this
      · exact heq
      · have := h4 j j1 hgt
        rw [j3] at this
        cases v <;> simp at this
  · intro hall
    rcases find_first_spec hb T_Size m v from_ hdvd hfrom with
      ⟨h1, _⟩ | ⟨i, h1, h2, h3, _, _⟩
    · exact h1
    · have := hall i h1 h2
      rw [test_in_range bits m h2] at this
      exact absurd h3 this

theorem find_first_correct_witness :
    0 < 8 ∧ 8 ∣ 16 ∧ 3 < 16 ∧
      find_first 16 8 (fun i => if i = 1 then 4 else 0) 3 true = 13 ∧
      ((∀ j, 3 ≤ j → j < 16 → test 16 8 (fun _ => 0) j ≠ true) →
        find_first 16 8 (fun _ => 0) 3 true = npos 16) :=
  ⟨by decide, by decide, by decide,
    (find_first_correct 16 8 (fun i => if i = 1 then 4 else 0) true 3 (by decide) (by decide)
      (by decide)).1 13 (by decide) (by decide) (by decide)
      (fun k h1 h2 => by interval_cases k <;> decide),
    (find_first_correct 16 8 (fun _ => 0) true 3 (by decide) (by decide) (by decide)).2.1⟩

/-! ## `all` -/

theorem fill_testBit (bits : Nat) (v : Bool) (k : Nat) :
    (if v then compl bits 0 else 0).testBit k = (decide (k < bits) && v) := by
  cases v <;> simp [compl_zero]

theorem mask_right_testBit (bits start k : Nat) :
    (Entry.mask_right bits start).testBit k = decide (start + k < bits) := by
  unfold Entry.mask_right
  rw [compl_zero, Nat.testBit_shiftRight, Nat.testBit_two_pow_sub_one]

/-- The comparison made by `all` on one word: the word masked to the offsets from
`start` on equals the masked fill word exactly when all those offsets hold `v`. -/
theorem all_word_iff {bits : Nat} (v : Bool) (w start : Nat) :
    (w &&& Entry.mask_right bits start =
        (if v then compl bits 0 else 0) &&& Entry.mask_right bits start) ↔
      ∀ o, start ≤ o → o < bits → w.testBit (bits - 1 - o) = v := by
  constructor
  · intro h o ho1 ho2
    have := congrArg (fun x => x.testBit (bits - 1 - o)) h
    simp only [Nat.testBit_and, mask_right_testBit, fill_testBit] at this
    have h1 : decide (start + (bits - 1 - o) < bits) = true := decide_eq_true (by omega)
    have h2 : decide (bits - 1 - o < bits) = true := decide_eq_true (by omega)
    rw [h1, h2] at this
    simpa using this
  · intro h
    apply Nat.eq_of_testBit_eq
    intro k
    simp only [Nat.testBit_and, mask_right_testBit, fill_testBit]
    by_cases hk : start + k < bits
    · have := h (bits - 1 - k) (by omega) (by omega)
      have e : bits - 1 - (bits - 1 - k) = k := by omega
      rw [e] at this
      have h2 : decide (k < bits) = true := decide_eq_true (by omega)
      rw [this, h2]
      simp
    · have h1 : decide (start + k < bits) = false := decide_eq_false hk
      rw [h1]
      simp

theorem fill_and_mask_right_zero (bits : Nat) (v : Bool) :
    (if v then compl bits 0 else 0) &&& Entry.mask_right bits 0 =
      (if v then compl bits 0 else 0) := by
  apply Nat.eq_of_testBit_eq
  intro k
  simp only [Nat.testBit_and, mask_right_testBit, fill_testBit]
  by_cases hk : k < bits <;> simp [hk]

/-- The word loop of `all` started on word `idx` at offset `start`: it answers `true`
exactly when every bit from there to the end of the last word holds `v`. -/
theorem all_loop_spec {bits : Nat} (hb : 0 < bits) (T_Size : Nat) (v : Bool) (m : Mem) :
    ∀ n idx start, start < bits → n = T_Words T_Size bits - idx →
      (Entry.all_loop bits (if v then compl bits 0 else 0) m n idx start
          ((if v then compl bits 0 else 0) &&& Entry.mask_right bits start) = true ↔
        ∀ j, idx * bits + start ≤ j → j < T_Words T_Size bits * bits →
          Entry.test bits m j = v) := by
  intro n
  induction n with
  | zero =>
    intro idx start _ hn
    have : T_Words T_Size bits * bits ≤ idx * bits := Nat.mul_le_mul_right _ (by omega)
    simp only [Entry.all_loop, true_iff]
    intro j h1 h2
    omega
  | succ n ih =>
    intro idx start hs hn
    have hlast : (idx + 1) * bits ≤ T_Words T_Size bits * bits :=
      Nat.mul_le_mul_right _ (by omega)
    rw [Nat.succ_mul] at hlast
    have hw := @all_word_iff bits v (m idx) start
    have hnext := ih (idx + 1) 0 hb (by omega)
    rw [fill_and_mask_right_zero, Nat.succ_mul] at hnext
    rw [Entry.all_loop]
    unfold Entry.word_for
    by_cases hcur : m idx &&& Entry.mask_right bits start =
        (if v then compl bits 0 else 0) &&& Entry.mask_right bits start
    · simp only [ne_eq, hcur, not_true_eq_false, if_false]
      rw [hnext]
      have hword := hw.mp hcur
      constructor
      · intro h j j1 j2
        by_cases hj : j < idx * bits + bits
        · rw [test_eq_testBit hb]
          obtain ⟨e1, e2⟩ := div_eq_of_bounds bits idx j (by omega) hj
          rw [e1, e2]
          exact hword _ (by omega) (by omega)
        · exact h j (by omega) j2
      · intro h j j1 j2
        exact h j (by omega) j2
    · simp only [ne_eq, hcur, not_false_eq_true, if_true, Bool.false_eq_true, false_iff]
      intro h
      apply hcur
      apply hw.mpr
      intro o o1 o2
      have := h (idx * bits + o) (by omega) (by omega)
      rw [test_eq_testBit hb] at this
      obtain ⟨e1, e2⟩ := div_eq_of_bounds bits idx (idx * bits + o) (by omega) (by omega)
      rw [e1, e2] at this
      have e : idx * bits + o - idx * bits = o := by omega
      rw [e] at this
      exact this

/-- C4: with `B` dividing `N` and `from < N`, `all(from, v)` returns true if and only
if `test(j) == v` for every `j` of `[from, N)`; `all(v)` is `all(0, v)`. -/
theorem all_correct (T_Size bits : Nat) (m : Mem) (v : Bool) (from_ : Nat)
    (hb : 0 < bits) (hdvd : bits ∣ T_Size) (hfrom : from_ < T_Size) :
    (all T_Size bits m from_ v = true ↔
        ∀ j, from_ ≤ j → j < T_Size → test T_Size bits m j = v) ∧
      all0 T_Size bits m v = all T_Size bits m 0 v := by
  refine ⟨?_, rfl⟩
  have hall : all T_Size bits m from_ v =
      Entry.all_loop bits (if v then compl bits 0 else 0) m
        (T_Words T_Size bits - from_ / bits) (from_ / bits) (from_ % bits)
        ((if v then compl bits 0 else 0) &&& Entry.mask_right bits (from_ % bits)) := by
    unfold all Entry.all Entry.byte_index
    rw [if_neg (by omega), word_index_eq hb]
  obtain ⟨h1, h2⟩ := decomp hb from_
  have := all_loop_spec hb T_Size v m (T_Words T_Size bits - from_ / bits) (from_ / bits)
    (from_ % bits) h2 rfl
  rw [← h1, ← hall, words_mul_bits hb hdvd] at this
  rw [this]
  constructor
  · intro h j j1 j2
    rw [test_in_range bits m j2]
    exact h j j1 j2
  · intro h j j1 j2
    rw [← test_in_range bits m j2]
    exact h j j1 j2

theorem all_correct_witness :
    0 < 8 ∧ 8 ∣ 16 ∧ 7 < 16 ∧
      (all 16 8 (fun i => if i = 1 then 255 else 1) 7 true = true ↔
        ∀ j, 7 ≤ j → j < 16 → test 16 8 (fun i => if i = 1 then 255 else 1) j = true) ∧
      all 16 8 (fun i => if i = 1 then 255 else 1) 7 true = true :=
  ⟨by decide, by decide, by decide,
    (all_correct 16 8 (fun i => if i = 1 then 255 else 1) true 7 (by decide) (by decide)
      (by decide)).1, by decide⟩

/-! ## `set` -/

theorem bne_of_ne {a b : Bool} (h : ¬ a = b) : (a != b) = true := by
  cases a <;> cases b <;> simp_all

/-- The candidate word computed by `set`: bit `o` is `b`, the rest is `w`. -/
theorem set_word_spec {bits o w : Nat} (h : o < bits) (hw : w < 2 ^ bits) (b : Bool) :
    (if b then w ||| 2 ^ (bits - 1 - o)
      else (w &&& compl bits (2 ^ (bits - 1 - o))) % 2 ^ bits) < 2 ^ bits ∧
    ∀ k, (if b then w ||| 2 ^ (bits - 1 - o)
      else (w &&& compl bits (2 ^ (bits - 1 - o))) % 2 ^ bits).testBit k =
      if k = bits - 1 - o then b else w.testBit k := by
  have hp := two_pow_lt_word h
  have hpos : 0 < 2 ^ bits := Nat.two_pow_pos _
  have hcompl : compl bits (2 ^ (bits - 1 - o)) = 2 ^ bits - (2 ^ (bits - 1 - o) + 1) := by
    unfold compl
    rw [Nat.mod_eq_of_lt hp]
    omega
  constructor
  · cases b
    · exact Nat.mod_lt _ hpos
    · exact Nat.or_lt_two_pow hw hp
  · intro k
    by_cases hk : k < bits
    · cases b
      · simp only [Bool.false_eq_true, if_false, Nat.testBit_mod_two_pow, Nat.testBit_and,
          hcompl, Nat.testBit_two_pow_sub_succ hp, Nat.testBit_two_pow, hk, decide_True,
          Bool.true_and]
        by_cases hko : k = bits - 1 - o
        · simp [hko]
        · have : ¬ bits - 1 - o = k := fun h => hko h.symm
          simp [hko, this]
      · simp only [if_true, Nat.testBit_or, Nat.testBit_two_pow]
        by_cases hko : k = bits - 1 - o
        · simp [hko]
        · have : ¬ bits - 1 - o = k := fun h => hko h.symm
          simp [hko, this]
    · have hne : k ≠ bits - 1 - o := by omega
      have hwk : w.testBit k = false := testBit_high hw (by omega)
      cases b
      · simp [Nat.testBit_mod_two_pow, hk, hne, hwk]
      · simp only [if_true, Nat.testBit_or, Nat.testBit_two_pow, hwk, if_neg hne,
          Bool.false_or, decide_eq_false_iff_not]
        omega

/-- `Entry::set(i, b)` given at least one round of fuel: it returns whether bit `i`
differed from `b`, afterwards bit `i` is `b` and no other bit changed, and the memory is
the one before when nothing had to be altered. -/
theorem entry_set_spec {bits : Nat} (hb : 0 < bits) (fuel : Nat) (m : Mem) (i : Nat)
    (b : Bool) (hm : WellTyped bits m) :
    ∃ m2, Entry.set bits (fuel + 1) m i b = some (Entry.test bits m i != b, m2) ∧
      WellTyped bits m2 ∧
      (∀ k, Entry.test bits m2 k = if k = i then b else Entry.test bits m k) ∧
      (Entry.test bits m i = b → m2 = m) := by
  obtain ⟨hi1, hi2⟩ := decomp hb i
  have hspec := set_word_spec hi2 (hm (i / bits)) b
  have htest := test_eq_testBit hb m i
  unfold Entry.set Entry.word_for Entry.byte_index
  simp only [word_index_eq hb, one_shiftRight hi2, Entry.set_loop]
  by_cases hbit : (m (i / bits)).testBit (bits - 1 - i % bits) = b
  · have hsame : (if b then m (i / bits) ||| 2 ^ (bits - 1 - i % bits)
        else (m (i / bits) &&& compl bits (2 ^ (bits - 1 - i % bits))) % 2 ^ bits) =
        m (i / bits) := by
      apply Nat.eq_of_testBit_eq
      intro k
      rw [hspec.2 k]
      split
      · rename_i h; rw [h, hbit]
      · rfl
    rw [if_pos hsame]
    refine ⟨m, ?_, hm, fun k => ?_, fun _ => rfl⟩
    · rw [htest, hbit]; simp
    · split
      · rename_i h; rw [h, htest, hbit]
      · rfl
  · have hdiff : ¬ (if b then m (i / bits) ||| 2 ^ (bits - 1 - i % bits)
        else (m (i / bits) &&& compl bits (2 ^ (bits - 1 - i % bits))) % 2 ^ bits) =
        m (i / bits) := by
      intro h
      apply hbit
      have := hspec.2 (bits - 1 - i % bits)
      rw [h, if_pos rfl] at this
      exact this
    rw [if_neg hdiff]
    simp only [compare_exchange_strong, if_true]
    refine ⟨fun j => if j = i / bits then
        (if b then m (i / bits) ||| 2 ^ (bits - 1 - i % bits)
          else (m (i / bits) &&& compl bits (2 ^ (bits - 1 - i % bits))) % 2 ^ bits)
        else m j, ?_, ?_, ?_, fun h => ?_⟩
    · rw [htest]
      rw [bne_of_ne hbit]
    · exact wellTyped_after_flip m _ (i / bits) hm (fun j hj => by simp [hj])
        (by simpa using hspec.1)
    · have := test_after_flip hb m
        (fun j => if j = i / bits then
          (if b then m (i / bits) ||| 2 ^ (bits - 1 - i % bits)
            else (m (i / bits) &&& compl bits (2 ^ (bits - 1 - i % bits))) % 2 ^ bits)
          else m j) (i / bits) (i % bits) b hi2 (fun j hj => by simp [hj])
        (by simpa using hspec.2)
      rw [← hi1] at this
      exact this
    · rw [htest] at h
      exact absurd h hbit

/-- C5: for `i < N`, `set(i, v)` returns true if and only if `test(i) != v` before the
call, and a second `set(i, v)` right after it returns false and leaves the state as it
is.  Both calls return with any fuel of at least one round. -/
theorem set_returns_changed_and_idempotent (T_Size bits fuel fuel2 : Nat) (m : Mem) (i : Nat)
    (v : Bool) (hb : 0 < bits) (hm : WellTyped bits m) (hi : i < T_Size) (hf : 0 < fuel)
    (hf2 : 0 < fuel2) :
    ∃ r m2, set bits fuel m i v = some (r, m2) ∧
      (r = true ↔ test T_Size bits m i ≠ v) ∧
      set bits fuel2 m2 i v = some (false, m2) := by
  obtain ⟨f, rfl⟩ : ∃ f, fuel = f + 1 := ⟨fuel - 1, by omega⟩
  obtain ⟨g, rfl⟩ : ∃ g, fuel2 = g + 1 := ⟨fuel2 - 1, by omega⟩
  obtain ⟨m2, h1, h2, h3, _⟩ := entry_set_spec hb f m i v hm
  obtain ⟨m3, k1, _, _, k4⟩ := entry_set_spec hb g m2 i v h2
  have hnow : Entry.test bits m2 i = v := by rw [h3, if_pos rfl]
  refine ⟨_, m2, h1, ?_, ?_⟩
  · rw [test_in_range bits m hi]
    cases Entry.test bits m i <;> cases v <;> simp
  · unfold set
    rw [k1, k4 hnow, hnow]
    simp

theorem set_returns_changed_and_idempotent_witness :
    0 < 8 ∧ WellTyped 8 (fun _ => 0) ∧ 11 < 16 ∧ 0 < 1 ∧ 0 < 1 ∧
      ∃ r m2, set 8 1 (fun _ => 0) 11 true = some (r, m2) ∧
        (r = true ↔ test 16 8 (fun _ => 0) 11 ≠ true) ∧
        set 8 1 m2 11 true = some (false, m2) :=
  ⟨by decide, wellTyped_const (by decide), by decide, by decide, by decide,
    set_returns_changed_and_idempotent 16 8 1 1 (fun _ => 0) 11 true (by decide)
      (wellTyped_const (by decide)) (by decide) (by decide) (by decide)⟩

/-- C6: for `i < N`, `set(i, v)` returns, afterwards `test(i) == v`, and every other
index `k < N` reads as before the call. -/
theorem set_point_and_frame (T_Size bits fuel : Nat) (m : Mem) (i : Nat) (v : Bool)
    (hb : 0 < bits) (hm : WellTyped bits m) (hi : i < T_Size) (hf : 0 < fuel) :
    ∃ r m2, set bits fuel m i v = some (r, m2) ∧
      test T_Size bits m2 i = v ∧
      ∀ k, k ≠ i → k < T_Size → test T_Size bits m2 k = test T_Size bits m k := by
  obtain ⟨f, rfl⟩ : ∃ f, fuel = f + 1 := ⟨fuel - 1, by omega⟩
  obtain ⟨m2, h1, _, h3, _⟩ := entry_set_spec hb f m i v hm
  refine ⟨_, m2, h1, ?_, fun k k1 k2 => ?_⟩
  · rw [test_in_range bits m2 hi, h3, if_pos rfl]
  · rw [test_in_range bits m2 k2, test_in_range bits m k2, h3, if_neg k1]

theorem set_point_and_frame_witness :
    0 < 8 ∧ WellTyped 8 (fun _ => 255) ∧ 11 < 16 ∧ 0 < 1 ∧
      ∃ r m2, set 8 1 (fun _ => 255) 11 false = some (r, m2) ∧
        test 16 8 m2 11 = false ∧
        ∀ k, k ≠ 11 → k < 16 → test 16 8 m2 k = test 16 8 (fun _ => 255) k :=
  ⟨by decide, wellTyped_const (by decide), by decide, by decide,
    set_point_and_frame 16 8 1 (fun _ => 255) 11 false (by decide)
      (wellTyped_const (by decide)) (by decide) (by decide)⟩

/-! ## Construction -/

/-- Every bit index below `T_Size` lives in one of the `T_Words` words. -/
theorem byte_index_lt_words {T_Size bits i : Nat} (hb : 0 < bits) (hi : i < T_Size) :
    i / bits < T_Words T_Size bits := by
  unfold T_Words
  have h1 : i / bits ≤ (T_Size - 1) / bits := Nat.div_le_div_right (by omega)
  have h2 : T_Size + bits - 1 = T_Size - 1 + bits := by omega
  rw [h2, Nat.add_div_right _ hb]
  omega

theorem init_with_loop_apply (bits d : Nat) (m : Mem) :
    ∀ n j, Entry.init_with_loop bits d n m j = if j < n then d % 2 ^ bits else m j := by
  intro n
  induction n with
  | zero => intro j; simp [Entry.init_with_loop]
  | succ n ih =>
    intro j
    simp only [Entry.init_with_loop, Entry.store, ih]
    by_cases h1 : j = n
    · simp [h1]
    · by_cases h2 : j < n
      · simp [h1, h2, Nat.lt_succ_of_lt h2]
      · have : ¬ j < n + 1 := by omega
        simp [h1, h2, this]

theorem fill_lt (bits : Nat) (v : Bool) : (if v then compl bits 0 else 0) < 2 ^ bits := by
  have hpos : 0 < 2 ^ bits := Nat.two_pow_pos _
  cases v
  · simp
  · simp only [if_true, compl_zero]; omega

/-- The memory built by `Bitset(bool v)`: the `T_Words` words are the fill word. -/
theorem bitset_bool_apply (T_Size bits : Nat) (raw : Mem) (v : Bool) (j : Nat) :
    Bitset_bool T_Size bits raw v j =
      if j < T_Words T_Size bits then (if v then compl bits 0 else 0)
      else raw j := by
  unfold Bitset_bool Entry.Entry_bool Entry.init_with
  rw [init_with_loop_apply, Nat.mod_eq_of_lt (fill_lt bits v)]
  split
  · rfl
  · rename_i h; simp [Entry.Entry_default, h]

theorem bitset_bool_wellTyped {bits : Nat} (T_Size : Nat) (raw : Mem) (v : Bool)
    (hraw : WellTyped bits raw) : WellTyped bits (Bitset_bool T_Size bits raw v) := by
  intro j
  rw [bitset_bool_apply]
  split
  · exact fill_lt bits v
  · exact hraw j

theorem bitset_bool_test {T_Size bits : Nat} (hb : 0 < bits) (raw : Mem) (v : Bool) {i : Nat}
    (hi : i < T_Size) : Entry.test bits (Bitset_bool T_Size bits raw v) i = v := by
  rw [test_eq_testBit hb, bitset_bool_apply, if_pos (byte_index_lt_words hb hi), fill_testBit]
  have : bits - 1 - i % bits < bits := by omega
  simp [this]

/-- C9: the default-constructed Bitset has `test(i) == false` for every `i < N`, and
`Bitset(v)` has `test(i) == v` for every `i < N`, for both `v` and every word width. -/
theorem uniform_construction (T_Size bits : Nat) (raw : Mem) (v : Bool) (i : Nat)
    (hb : 0 < bits) (hi : i < T_Size) :
    test T_Size bits (Bitset_default T_Size bits raw) i = false ∧
      test T_Size bits (Bitset_bool T_Size bits raw v) i = v := by
  constructor
  · rw [test_in_range bits _ hi, test_eq_testBit hb]
    unfold Bitset_default Entry.Entry_default
    rw [if_pos (byte_index_lt_words hb hi)]
    simp
  · rw [test_in_range bits _ hi]
    exact bitset_bool_test hb raw v hi

theorem uniform_construction_witness :
    0 < 16 ∧ 21 < 24 ∧
      test 24 16 (Bitset_default 24 16 (fun _ => 77)) 21 = false ∧
      test 24 16 (Bitset_bool 24 16 (fun _ => 77) true) 21 = true :=
  ⟨by decide, by decide,
    uniform_construction 24 16 (fun _ => 77) true 21 (by decide) (by decide)⟩

theorem succ_div_mod {bits : Nat} (hb : 0 < bits) (n : Nat) :
    ((n + 1) % bits = 0 → (n + 1) / bits = n / bits + 1 ∧ n % bits = bits - 1) ∧
      ((n + 1) % bits ≠ 0 → (n + 1) / bits = n / bits ∧ n % bits + 1 < bits) := by
  obtain ⟨h1, h2⟩ := decomp hb n
  by_cases hr : n % bits + 1 < bits
  · obtain ⟨e1, e2⟩ := div_eq_of_bounds bits (n / bits) (n + 1) (by omega) (by omega)
    exact ⟨fun h => by omega, fun _ => ⟨e1, hr⟩⟩
  · have hmul : (n / bits + 1) * bits = n / bits * bits + bits := Nat.succ_mul _ _
    obtain ⟨e1, e2⟩ := div_eq_of_bounds bits (n / bits + 1) (n + 1) (by omega) (by omega)
    exact ⟨fun _ => ⟨e1, by omega⟩, fun h => by omega⟩

/-- The loop of `transfer` after `n` rounds: `entryIdx` is `n / bits`, the words below
it hold the pattern, the words from it on are untouched, and the pending `word` holds the
bits of the pattern read since the last store. -/
theorem transfer_loop_spec {bits : Nat} (hb : 0 < bits) (init : Nat → Bool) (m0 : Mem) :
    ∀ n, (Entry.transfer_loop bits init m0 n).2.1 = n / bits ∧
      (Entry.transfer_loop bits init m0 n).1 < 2 ^ bits ∧
      (∀ o, o < bits → (Entry.transfer_loop bits init m0 n).1.testBit (bits - 1 - o) =
        (decide (n / bits * bits + o < n) && init (n / bits * bits + o))) ∧
      (∀ w o, w < n / bits → o < bits →
        ((Entry.transfer_loop bits init m0 n).2.2 w).testBit (bits - 1 - o) =
          init (w * bits + o)) ∧
      (∀ w, n / bits ≤ w → (Entry.transfer_loop bits init m0 n).2.2 w = m0 w) := by
  intro n
  induction n with
  | zero =>
    refine ⟨by simp [Entry.transfer_loop], by simp [Entry.transfer_loop], ?_, ?_, ?_⟩
    · intro o _; simp [Entry.transfer_loop]
    · intro w o hw; simp at hw
    · intro w _; simp [Entry.transfer_loop]
  | succ n ih =>
    obtain ⟨hn1, hn2⟩ := decomp hb n
    rw [Entry.transfer_loop]
    rcases hst : Entry.transfer_loop bits init m0 n with ⟨word, entryIdx, m⟩
    rw [hst] at ih
    simp only [] at ih
    obtain ⟨i1, i2, i3, i4, i5⟩ := ih
    subst i1
    have hcb : (1 <<< (bits - 1 - n % bits)) % 2 ^ bits = 2 ^ (bits - 1 - n % bits) := by
      rw [Nat.one_shiftLeft]
      exact Nat.mod_eq_of_lt (two_pow_lt_word hn2)
    have hlt : (if init n = true then word ||| 2 ^ (bits - 1 - n % bits) else word) <
        2 ^ bits := by
      split
      · exact Nat.or_lt_two_pow i2 (two_pow_lt_word hn2)
      · exact i2
    have hbitsw : ∀ o, o < bits →
        (if init n = true then word ||| 2 ^ (bits - 1 - n % bits) else word).testBit
          (bits - 1 - o) = (decide (n / bits * bits + o < n + 1) && init (n / bits * bits + o)) := by
      intro o ho
      by_cases hor : o = n % bits
      · have e1 : n / bits * bits + o = n := by omega
        have e2 := i3 o ho
        rw [e1] at e2
        rw [e1, hor]
        rw [hor] at e2
        cases hi : init n
        · simp [e2]
        · simp [Nat.testBit_or]
      · have e2 := i3 o ho
        have hne : ¬ bits - 1 - n % bits = bits - 1 - o := by omega
        have hd : decide (n / bits * bits + o < n + 1) = decide (n / bits * bits + o < n) := by
          apply decide_eq_decide.mpr
          omega
        rw [hd, ← e2]
        cases hi : init n
        · simp
        · simp [Nat.testBit_or, Nat.testBit_two_pow, hne]
    simp only [hcb]
    obtain ⟨hw1, hw2⟩ := succ_div_mod hb n
    by_cases hwrap : (n + 1) % bits = 0
    · obtain ⟨hq, hr⟩ := hw1 hwrap
      rw [if_pos hwrap, hq]
      refine ⟨rfl, Nat.two_pow_pos _, ?_, ?_, ?_⟩
      · intro o ho
        have : ¬ (n / bits + 1) * bits + o < n + 1 := by rw [Nat.succ_mul]; omega
        simp [this]
      · intro w o hw ho
        simp only [Entry.store]
        by_cases hwq : w = n / bits
        · rw [if_pos hwq, Nat.mod_eq_of_lt hlt, hbitsw o ho, hwq]
          have : n / bits * bits + o < n + 1 := by omega
          simp [this]
        · rw [if_neg hwq]
          exact i4 w o (by omega) ho
      · intro w hw
        simp only [Entry.store]
        rw [if_neg (by omega)]
        exact i5 w (by omega)
    · obtain ⟨hq, _⟩ := hw2 hwrap
      rw [if_neg hwrap, hq]
      exact ⟨rfl, hlt, hbitsw, i4, i5⟩

/-- Reading back a Bitset constructed from the pattern `p`. -/
theorem bitset_bitset_test {T_Size bits : Nat} (hb : 0 < bits) (raw : Mem) (p : Nat → Bool)
    {i : Nat} (hi : i < T_Size) :
    test T_Size bits (Bitset_bitset T_Size bits raw p) i = p i := by
  rw [test_in_range bits _ hi, test_eq_testBit hb]
  obtain ⟨hi1, hi2⟩ := decomp hb i
  obtain ⟨hN1, hN2⟩ := decomp hb T_Size
  obtain ⟨h1, h2, h3, h4, _⟩ :=
    transfer_loop_spec hb p (Entry.Entry_default T_Size bits raw) T_Size
  have hle : i / bits ≤ T_Size / bits := Nat.div_le_div_right (by omega)
  unfold Bitset_bitset Entry.Entry_bitset Entry.transfer
  rcases hst : Entry.transfer_loop bits p (Entry.Entry_default T_Size bits raw) T_Size with
    ⟨word, entryIdx, m⟩
  rw [hst] at h1 h2 h3 h4
  simp only [] at h1 h2 h3 h4
  subst h1
  simp only []
  by_cases hlast : i / bits = T_Size / bits
  · have hpart : T_Size % bits ≠ 0 := by
      intro h0
      rw [← hlast] at hN1
      omega
    rw [if_pos hpart]
    simp only [Entry.store]
    rw [if_pos hlast, Nat.mod_eq_of_lt h2, h3 _ hi2, ← hlast, ← hi1]
    simp [hi]
  · have hlt : i / bits < T_Size / bits := by omega
    have := h4 (i / bits) (i % bits) hlt hi2
    rw [← hi1] at this
    split
    · simp only [Entry.store]
      rw [if_neg hlast]
      exact this
    · exact this

/-- C7: for every pattern `p` of `N` bits and every word width, the Bitset constructed
from `p` satisfies `test(i) == p[i]` for every `i < N`. -/
theorem round_trip_construction (T_Size bits : Nat) (raw : Mem) (p : Nat → Bool) (i : Nat)
    (hb : 0 < bits) (hi : i < T_Size) :
    test T_Size bits (Bitset_bitset T_Size bits raw p) i = p i :=
  bitset_bitset_test hb raw p hi

theorem round_trip_construction_witness :
    0 < 16 ∧ 21 < 24 ∧
      test 24 16 (Bitset_bitset 24 16 (fun _ => 77) (fun i => i % 3 == 0)) 21 =
        (fun i => i % 3 == 0) 21 :=
  ⟨by decide, by decide,
    round_trip_construction 24 16 (fun _ => 77) (fun i => i % 3 == 0) 21 (by decide)
      (by decide)⟩

/-! ## Claiming every bit in turn -/

theorem bool_ne_not (v : Bool) : ¬ v = !v := by cases v <;> simp

/-- One `swap_first(0, v)` on a state whose bits below `k` are `v` and whose other bits
are `!v`: it returns `k` (or `T_Size` once `k` has reached it) and extends the prefix. -/
theorem swap_first_next_claim {bits : Nat} (hb : 0 < bits) (T_Size : Nat) (v : Bool) (m : Mem)
    (k : Nat) (hm : WellTyped bits m)
    (hpre : ∀ j, j < T_Size → Entry.test bits m j = if j < k then v else !v) :
    (swap_first2 T_Size bits m 0 v).ret = min k T_Size ∧
      WellTyped bits (swap_first2 T_Size bits m 0 v).m_data ∧
      ∀ j, j < T_Size →
        Entry.test bits (swap_first2 T_Size bits m 0 v).m_data j = if j < k + 1 then v else !v := by
  unfold swap_first2
  by_cases hN : T_Size = 0
  · subst hN
    refine ⟨?_, ?_, fun j hj => by omega⟩
    · simp [swap_first, npos]
    · simpa [swap_first] using hm
  · rcases swap_first_spec hb T_Size m v 0 T_Size hm (by omega) with
      ⟨h1, h2, _, h4⟩ | ⟨j0, _, h2, h3, h4, h5, h6, h7⟩
    · have hk : T_Size ≤ k := by
        by_contra hlt
        have e1 := h4 k (by omega) (by omega)
        rw [hpre k (by omega), if_neg (by omega)] at e1
        exact bool_ne_not v e1.symm
      rw [h1, h2]
      refine ⟨by omega, hm, fun j hj => ?_⟩
      rw [h4 j (by omega) hj, if_pos (by omega)]
    · have hge : k ≤ j0 := by
        by_contra hlt
        rw [hpre j0 h2, if_pos (by omega)] at h3
        exact bool_ne_not v h3
      have hle : j0 ≤ k := by
        by_contra hlt
        have e1 := h4 k (by omega) (by omega)
        rw [hpre k (by omega), if_neg (by omega)] at e1
        exact bool_ne_not v e1.symm
      have hjk : j0 = k := by omega
      subst hjk
      rw [h5]
      refine ⟨by omega, h6, fun j hj => ?_⟩
      rw [h7, hpre j hj]
      by_cases hj0 : j = j0
      · rw [if_pos hj0, if_pos (by omega)]
      · rw [if_neg hj0]
        by_cases hlt : j < j0
        · rw [if_pos hlt, if_pos (by omega)]
        · rw [if_neg hlt, if_neg (by omega)]

/-- After `k` successive `swap_first(0, v)` on a Bitset filled with `!v`, the bits below
`k` are `v` and the others still `!v`. -/
theorem swap_first_run_spec {bits : Nat} (hb : 0 < bits) (T_Size : Nat) (v : Bool) (raw : Mem)
    (hraw : WellTyped bits raw) :
    ∀ k, WellTyped bits (swap_first_run T_Size bits v (Bitset_bool T_Size bits raw (!v)) k) ∧
      ∀ j, j < T_Size →
        Entry.test bits (swap_first_run T_Size bits v (Bitset_bool T_Size bits raw (!v)) k) j =
          if j < k then v else !v := by
  intro k
  induction k with
  | zero =>
    refine ⟨bitset_bool_wellTyped T_Size raw (!v) hraw, fun j hj => ?_⟩
    rw [if_neg (by omega)]
    exact bitset_bool_test hb raw (!v) hj
  | succ k ih =>
    obtain ⟨h1, h2⟩ := ih
    obtain ⟨_, k2, k3⟩ := swap_first_next_claim hb T_Size v _ k h1 h2
    exact ⟨k2, k3⟩

/-- C8: on a Bitset of length `N` filled with `!v`, the successive calls of
`swap_first(0, v)` return `0, 1, ..., N-1` in that order; before the call that returns
`k` every bit from `k` on is still `!v` and after it every bit up to `k` is `v`; after
`N` calls every bit is `v` and every further call returns `N`. -/
theorem sequential_claim_exhaustion (T_Size bits : Nat) (v : Bool) (raw : Mem)
    (hb : 0 < bits) (hraw : WellTyped bits raw) :
    (∀ k, k < T_Size →
        (swap_first2 T_Size bits
            (swap_first_run T_Size bits v (Bitset_bool T_Size bits raw (!v)) k) 0 v).ret = k ∧
          (∀ j, k ≤ j → j < T_Size →
            test T_Size bits
              (swap_first_run T_Size bits v (Bitset_bool T_Size bits raw (!v)) k) j = !v) ∧
          (∀ j, j ≤ k →
            test T_Size bits
              (swap_first_run T_Size bits v (Bitset_bool T_Size bits raw (!v)) (k + 1)) j = v)) ∧
      (∀ j, j < T_Size →
        test T_Size bits
          (swap_first_run T_Size bits v (Bitset_bool T_Size bits raw (!v)) T_Size) j = v) ∧
      (∀ k, T_Size ≤ k →
        (swap_first2 T_Size bits
          (swap_first_run T_Size bits v (Bitset_bool T_Size bits raw (!v)) k) 0 v).ret = T_Size) := by
  have hrun := swap_first_run_spec hb T_Size v raw hraw
  refine ⟨fun k hk => ⟨?_, fun j j1 j2 => ?_, fun j j1 => ?_⟩, fun j hj => ?_, fun k hk => ?_⟩
  · rw [(swap_first_next_claim hb T_Size v _ k (hrun k).1 (hrun k).2).1]
    omega
  · rw [test_in_range bits _ j2, (hrun k).2 j j2, if_neg (by omega)]
  · rw [test_in_range bits _ (by omega), (hrun (k + 1)).2 j (by omega), if_pos (by omega)]
  · rw [test_in_range bits _ hj, (hrun T_Size).2 j hj, if_pos hj]
  · rw [(swap_first_next_claim hb T_Size v _ k (hrun k).1 (hrun k).2).1]
    omega

theorem sequential_claim_exhaustion_witness :
    0 < 8 ∧ WellTyped 8 (fun _ => 0) ∧
      (swap_first2 1024 8
        (swap_first_run 1024 8 true (Bitset_bool 1024 8 (fun _ => 0) (!true)) 0) 0 true).ret
        = 0 ∧
      (swap_first2 1024 8
        (swap_first_run 1024 8 true (Bitset_bool 1024 8 (fun _ => 0) (!true)) 1) 0 true).ret
        = 1 ∧
      (∀ k, k < 1024 →
        (swap_first2 1024 8
          (swap_first_run 1024 8 true (Bitset_bool 1024 8 (fun _ => 0) (!true)) k) 0 true).ret
          = k) ∧
      (∀ j, j < 1024 →
        test 1024 8
          (swap_first_run 1024 8 true (Bitset_bool 1024 8 (fun _ => 0) (!true)) 1024) j = true) ∧
      (swap_first2 1024 8
        (swap_first_run 1024 8 true (Bitset_bool 1024 8 (fun _ => 0) (!true)) 1024) 0 true).ret
        = 1024 :=
  ⟨by decide, wellTyped_const (by decide),
    ((sequential_claim_exhaustion 1024 8 true (fun _ => 0) (by decide)
      (wellTyped_const (by decide))).1 0 (by decide)).1,
    ((sequential_claim_exhaustion 1024 8 true (fun _ => 0) (by decide)
      (wellTyped_const (by decide))).1 1 (by decide)).1,
    fun k hk => ((sequential_claim_exhaustion 1024 8 true (fun _ => 0) (by decide)
      (wellTyped_const (by decide))).1 k hk).1,
    (sequential_claim_exhaustion 1024 8 true (fun _ => 0) (by decide)
      (wellTyped_const (by decide))).2.1,
    (sequential_claim_exhaustion 1024 8 true (fun _ => 0) (by decide)
      (wellTyped_const (by decide))).2.2 1024 (le_refl _)⟩

/-! ## The words `swap_first` touches -/

/-- When no bit of `[idx, limit)` differs from `v`, `swap_first(idx, v, limit)` loads the
word with index `limit / bits`. -/
theorem swap_first_touches_limit_word {bits : Nat} (hb : 0 < bits) (T_Size : Nat) (m : Mem)
    (v : Bool) (idx limit : Nat) (hm : WellTyped bits m) (hidx : idx < T_Size)
    (hle : idx ≤ limit) (hall : ∀ j, idx ≤ j → j < limit → Entry.test bits m j = v) :
    limit / bits ∈ (swap_first T_Size bits m idx v limit).touched := by
  rcases swap_first_spec hb T_Size m v idx limit hm hidx with
    ⟨_, _, h3, _⟩ | ⟨j, h1, h2, h3, _⟩
  · exact h3 (Nat.div_le_div_right hle)
  · rw [hall j h1 h2] at h3
    exact absurd h3 (bool_ne_not v)

/-- C10, at `Bitset<8, uint8_t>` with every bit true: `swap_first(0, true, 8)`, which is
what `swap_first(true)` calls, returns `npos` after loading the words `0` and `1`, while
the array has `T_Words = 1` word. -/
theorem swap_first_loads_past_last_word :
    T_Words 8 8 = 1 ∧
      (swap_first 8 8 (Bitset_bool 8 8 (fun _ => 0) true) 0 true 8).touched = [0, 1] ∧
      (swap_first1 8 8 (Bitset_bool 8 8 (fun _ => 0) true) true).touched = [0, 1] ∧
      (swap_first 8 8 (Bitset_bool 8 8 (fun _ => 0) true) 0 true 8).ret = npos 8 := by
  decide

/-! ## Indices out of range -/

/-- C11, on default-constructed Bitsets of length 8: `set(8, true)` returns true and
writes.  With 8-bit words it stores `0x80` in the word with index 1, past the one-word
array; with 16-bit words it turns backing word 0 from `0` into `0x0080`, after which
`all(0, false)` answers false where it answered true before. -/
theorem set_out_of_range_writes :
    (T_Words 8 8 = 1 ∧ Bitset_default 8 8 (fun _ => 0) 1 = 0 ∧
      ∃ m, set 8 1 (Bitset_default 8 8 (fun _ => 0)) 8 true = some (true, m) ∧ m 1 = 128) ∧
    (T_Words 8 16 = 1 ∧ Bitset_default 8 16 (fun _ => 0) 0 = 0 ∧
      all 8 16 (Bitset_default 8 16 (fun _ => 0)) 0 false = true ∧
      ∃ m, set 16 1 (Bitset_default 8 16 (fun _ => 0)) 8 true = some (true, m) ∧ m 0 = 128 ∧
        all 8 16 m 0 false = false) :=
  ⟨⟨by decide, by decide, _, rfl, by decide⟩,
    ⟨by decide, by decide, by decide, _, rfl, by decide, by decide⟩⟩

/-- C12: `find_first(i, v)` with `i ≥ N` returns `0` (the `false` of its range check)
for every state, length, word width and value, while `npos` is `N`; at
`Bitset<8, uint8_t>`, `find_first(8, true)` is `0` and `npos` is `8`. -/
theorem find_first_out_of_range_returns_zero :
    (∀ (T_Size bits : Nat) (m : Mem) (k : Nat) (v : Bool),
        find_first T_Size bits m (T_Size + k) v = 0) ∧
      find_first 8 8 (Bitset_default 8 8 (fun _ => 0)) 8 true = 0 ∧ npos 8 = 8 := by
  refine ⟨fun T_Size bits m k v => ?_, by decide, by decide⟩
  unfold find_first
  rw [if_pos (by omega)]

/-- C13, at `N = 8` with 16-bit words: after the default constructor and
`set(i, true)` for `i = 0..7` the one backing word is `0xFF00`, every `test(j)` with
`j < 8` is true, and `all(0, true)` answers false. -/
theorem all_sees_padding :
    T_Words 8 16 = 1 ∧
      ∃ m, set_run 16 1 true (Bitset_default 8 16 (fun _ => 0)) 8 = some m ∧
        m 0 = 0xFF00 ∧ (∀ j, j < 8 → test 8 16 m j = true) ∧ all 8 16 m 0 true = false :=
  ⟨by decide, _, rfl, by decide, by decide, by decide⟩

/-- C14: for every state, every index `i ≥ N` and every `v`, `test(i)` returns false
and `all(i, v)` returns false. -/
theorem out_of_range_reads_false (T_Size bits : Nat) (m : Mem) (i : Nat) (v : Bool)
    (hi : T_Size ≤ i) :
    test T_Size bits m i = false ∧ all T_Size bits m i v = false := by
  unfold test all
  rw [if_pos hi, if_pos hi]
  exact ⟨rfl, rfl⟩

theorem out_of_range_reads_false_witness :
    8 ≤ 11 ∧ test 8 8 (fun _ => 255) 11 = false ∧ all 8 8 (fun _ => 255) 11 true = false :=
  ⟨by decide, out_of_range_reads_false 8 8 (fun _ => 255) 11 true (by decide)⟩

/-- C15: for every state, every `from ≥ N`, every `v` and every `limit`,
`swap_first(from, v, limit)` returns `N`, leaves the memory as it is and accesses no
word. -/
theorem swap_first_out_of_range (T_Size bits : Nat) (m : Mem) (from_ : Nat) (v : Bool)
    (limit : Nat) (hfrom : T_Size ≤ from_) :
    (swap_first T_Size bits m from_ v limit).ret = T_Size ∧
      (swap_first T_Size bits m from_ v limit).m_data = m ∧
      (swap_first T_Size bits m from_ v limit).touched = [] := by
  unfold swap_first
  rw [if_pos hfrom]
  exact ⟨rfl, rfl, rfl⟩

theorem swap_first_out_of_range_witness :
    8 ≤ 8 ∧ (swap_first 8 8 (fun _ => 0) 8 true 100).ret = 8 ∧
      (swap_first 8 8 (fun _ => 0) 8 true 100).m_data = (fun _ => 0) ∧
      (swap_first 8 8 (fun _ => 0) 8 true 100).touched = [] :=
  ⟨by decide, swap_first_out_of_range 8 8 (fun _ => 0) 8 true 100 (by decide)⟩

/-! ## A compare-exchange that fails -/

/-- A round of the inner loop of `swap_first` whose compare-exchange fails (the stored
word is not the loaded copy): the loop goes on at offset `bit + 1` with the word handed
back. -/
theorem swap_first_for_failed_cas (bits : Nat) (v : Bool) (wordIdx n bit word : Nat) (m : Mem)
    (hcand : ((one_ bits >>> bit) &&& word) % 2 ^ bits = if v then 0 else one_ bits >>> bit)
    (hfail : m wordIdx ≠ word) :
    Entry.swap_first_for bits v wordIdx (n + 1) bit word m =
      ((Entry.swap_first_for bits v wordIdx n (bit + 1) (m wordIdx) m).1,
        (Entry.swap_first_for bits v wordIdx n (bit + 1) (m wordIdx) m).2.1,
        wordIdx :: (Entry.swap_first_for bits v wordIdx n (bit + 1) (m wordIdx) m).2.2) := by
  rw [Entry.swap_first_for]
  simp only [hcand, if_true, compare_exchange_strong, if_neg hfail]

/-- C17, with 8-bit words and `v = true`: the loop holds the loaded word `0x00` and is at
offset 0 while the stored word has become `0x01`.  The compare-exchange at offset 0
fails, the next offset examined is 1, and the loop claims index 1, storing `0x41`,
although bit 0 of the word seen by the successful compare-exchange is still false; with
the window `[0, 1)` the same run claims nothing. -/
theorem swap_first_moves_on_after_failed_cas :
    Entry.test 8 (fun _ => 1) 0 = false ∧
      (Entry.swap_first_for 8 true 0 8 0 0 (fun _ => 1)).1 = some 1 ∧
      (Entry.swap_first_for 8 true 0 8 0 0 (fun _ => 1)).2.1 0 = 0x41 ∧
      (Entry.swap_first_for 8 true 0 8 0 0 (fun _ => 1)).2.2 = [0, 0] ∧
      Entry.swap_first_for 8 true 0 8 0 0 (fun _ => 1) =
        ((Entry.swap_first_for 8 true 0 7 1 1 (fun _ => 1)).1,
          (Entry.swap_first_for 8 true 0 7 1 1 (fun _ => 1)).2.1,
          0 :: (Entry.swap_first_for 8 true 0 7 1 1 (fun _ => 1)).2.2) ∧
      (Entry.swap_first_for 8 true 0 1 0 0 (fun _ => 1)).1 = none ∧
      (Entry.swap_first_for 8 true 0 1 0 0 (fun _ => 1)).2.1 0 = 1 :=
  ⟨by decide, by decide, by decide, by decide, rfl, by decide, by decide⟩

/-! ## `to_string` -/

theorem to_string_loop_eq (T_Size bits : Nat) (m : Mem) :
    ∀ n, to_string_loop T_Size bits m n =
      (List.range n).map (fun i => if test T_Size bits m i then '1' else '0') := by
  intro n
  induction n with
  | zero => rfl
  | succ n ih => simp [to_string_loop, ih, List.range_succ]

theorem reverse_loop_eq (s : List Char) :
    ∀ n, reverse_loop s n = (List.range n).map (fun k => s.getD (s.length - 1 - k) '0') := by
  intro n
  induction n with
  | zero => rfl
  | succ n ih => simp [reverse_loop, ih, List.range_succ]

/-- `reverse` applied to a string given by its characters `f 0, ..., f (n - 1)`. -/
theorem reverse_map_range (f : Nat → Char) (n : Nat) :
    reverse ((List.range n).map f) = (List.range n).map (fun k => f (n - 1 - k)) := by
  unfold reverse
  rw [reverse_loop_eq]
  simp only [List.length_map, List.length_range]
  apply List.map_congr_left
  intro k hk
  have hk2 : k < n := List.mem_range.mp hk
  have hlt : n - 1 - k < n := by omega
  simp [List.getD_eq_getElem?_getD, hlt]

/-- C18: `to_string()` returns exactly `N` characters, the one at position `i` being
`'1'` if `test(i)` and `'0'` otherwise; so for a Bitset constructed from a pattern `p`
the reverse of `to_string()` is the `to_string` of `std::bitset`, which prints index
`N - 1` first. -/
theorem to_string_rendering (T_Size bits : Nat) (m : Mem) :
    (to_string T_Size bits m).length = T_Size ∧
      (∀ i, i < T_Size →
        (to_string T_Size bits m)[i]? = some (if test T_Size bits m i then '1' else '0')) ∧
      (∀ (raw : Mem) (p : Nat → Bool), 0 < bits →
        reverse (to_string T_Size bits (Bitset_bitset T_Size bits raw p)) =
          std_bitset_to_string T_Size p) := by
  refine ⟨?_, fun i hi => ?_, fun raw p hb => ?_⟩
  · simp [to_string, to_string_loop_eq]
  · simp [to_string, to_string_loop_eq, hi]
  · unfold to_string std_bitset_to_string
    rw [to_string_loop_eq, reverse_map_range]
    apply List.map_congr_left
    intro k hk
    have hk2 : k < T_Size := List.mem_range.mp hk
    rw [bitset_bitset_test hb raw p (by omega)]

theorem to_string_rendering_witness :
    (to_string 8 8 (fun _ => 0xA0)).length = 8 ∧ 2 < 8 ∧
      (to_string 8 8 (fun _ => 0xA0))[2]? =
        some (if test 8 8 (fun _ => 0xA0) 2 then '1' else '0') ∧
      0 < 8 ∧
      reverse (to_string 8 8 (Bitset_bitset 8 8 (fun _ => 0) (fun i => i % 3 == 0))) =
        std_bitset_to_string 8 (fun i => i % 3 == 0) ∧
      to_string 8 8 (fun _ => 0xA0) = ['1', '0', '1', '0', '0', '0', '0', '0'] :=
  ⟨(to_string_rendering 8 8 (fun _ => 0xA0)).1, by decide,
    (to_string_rendering 8 8 (fun _ => 0xA0)).2.1 2 (by decide), by decide,
    (to_string_rendering 8 8 (fun _ => 0xA0)).2.2 (fun _ => 0) (fun i => i % 3 == 0)
      (by decide),
    by decide⟩

/-! ## The return value of the public `set` -/

/-- C19 fails at the default-constructed `Bitset<8, uint8_t>`: bit 0 is false, yet
`set(0, false)` does not return true and `set(0, true)` does not return false. -/
theorem public_set_doc_comment_counterexample :
    ¬ ((test 8 8 (Bitset_default 8 8 (fun _ => 0)) 0 = false →
          (set 8 1 (Bitset_default 8 8 (fun _ => 0)) 0 false).map Prod.fst = some true) ∧
        (test 8 8 (Bitset_default 8 8 (fun _ => 0)) 0 ≠ true →
          (set 8 1 (Bitset_default 8 8 (fun _ => 0)) 0 true).map Prod.fst = some false)) := by
  decide

/-- C19 as amended: for every `i < N` and every `b`, `set(i, b)` returns false when the
bit at `i` is already `b`, and true otherwise, as the comment on `Entry::set` says. -/
theorem public_set_return_value (T_Size bits fuel : Nat) (m : Mem) (i : Nat) (b : Bool)
    (hb : 0 < bits) (hm : WellTyped bits m) (hi : i < T_Size) (hf : 0 < fuel) :
    ∃ r m2, set bits fuel m i b = some (r, m2) ∧
      (test T_Size bits m i = b → r = false) ∧ (test T_Size bits m i ≠ b → r = true) := by
  obtain ⟨f, rfl⟩ : ∃ f, fuel = f + 1 := ⟨fuel - 1, by omega⟩
  obtain ⟨m2, h1, _⟩ := entry_set_spec hb f m i b hm
  refine ⟨_, m2, h1, ?_, ?_⟩
  · intro h
    rw [test_in_range bits m hi] at h
    rw [h]; simp
  · intro h
    rw [test_in_range bits m hi] at h
    exact bne_of_ne h

theorem public_set_return_value_witness :
    0 < 8 ∧ WellTyped 8 (fun _ => 0) ∧ 3 < 8 ∧ 0 < 1 ∧
      ∃ r m2, set 8 1 (fun _ => 0) 3 false = some (r, m2) ∧
        (test 8 8 (fun _ => 0) 3 = false → r = false) ∧
        (test 8 8 (fun _ => 0) 3 ≠ false → r = true) :=
  ⟨by decide, wellTyped_const (by decide), by decide, by decide,
    public_set_return_value 8 8 1 (fun _ => 0) 3 false (by decide)
      (wellTyped_const (by decide)) (by decide) (by decide)⟩

/-! ## The index mapping -/

/-- C20: for every bit index `i` and word width, `byte_index(i) = i / B`,
`word_index(i) = i mod B`, which is below `B`, and `bit_index` puts the two together
again; conversely, for every word index `w` and offset `o < B` whose bit index
`w * B + o` is a `size_t` (is below `2 ^ 64`, so that `bit_index` does not wrap),
`byte_index` and `word_index` take `bit_index(w, o)` back to `w` and `o`. -/
theorem index_mapping_bijection (bits i w o : Nat) (hb : 0 < bits) (ho : o < bits)
    (hw : w * bits + o < 2 ^ 64) :
    Entry.byte_index bits i = i / bits ∧
      Entry.word_index bits i = i % bits ∧
      Entry.word_index bits i < bits ∧
      Entry.bit_index bits (Entry.byte_index bits i) (Entry.word_index bits i) = i ∧
      Entry.bit_index bits w o < 2 ^ 64 ∧
      Entry.byte_index bits (Entry.bit_index bits w o) = w ∧
      Entry.word_index bits (Entry.bit_index bits w o) = o := by
  obtain ⟨h1, h2⟩ := decomp hb i
  obtain ⟨e1, e2⟩ := div_eq_of_bounds bits w (w * bits + o) (by omega) (by omega)
  refine ⟨rfl, word_index_eq hb i, ?_, ?_, ?_, ?_, ?_⟩
  · rw [word_index_eq hb]; exact h2
  · rw [word_index_eq hb, bit_index_eq h2]
    exact h1.symm
  · rw [bit_index_eq ho]
    exact hw
  · rw [bit_index_eq ho]
    exact e1
  · rw [bit_index_eq ho, word_index_eq hb, e2]
    omega

theorem index_mapping_bijection_witness :
    0 < 8 ∧ 5 < 8 ∧ 40 * 8 + 5 < 2 ^ 64 ∧ Entry.byte_index 8 1023 = 1023 / 8 ∧
      Entry.word_index 8 1023 = 1023 % 8 ∧
      Entry.word_index 8 1023 < 8 ∧
      Entry.bit_index 8 (Entry.byte_index 8 1023) (Entry.word_index 8 1023) = 1023 ∧
      Entry.bit_index 8 40 5 < 2 ^ 64 ∧
      Entry.byte_index 8 (Entry.bit_index 8 40 5) = 40 ∧
      Entry.word_index 8 (Entry.bit_index 8 40 5) = 5 :=
  ⟨by decide, by decide, by decide,
    index_mapping_bijection 8 1023 40 5 (by decide) (by decide) (by decide)⟩

/-! ## `swap_first`, `find_first`, `set` and `all` against each other -/

/-- Two well-typed memories in which every bit reads the same are the same memory. -/
theorem mem_eq_of_test_eq {bits : Nat} (hb : 0 < bits) (m1 m2 : Mem)
    (h1 : WellTyped bits m1) (h2 : WellTyped bits m2)
    (h : ∀ k, Entry.test bits m1 k = Entry.test bits m2 k) : m1 = m2 := by
  funext w
  apply Nat.eq_of_testBit_eq
  intro p
  by_cases hp : p < bits
  · have hk := h (w * bits + (bits - 1 - p))
    rw [test_eq_testBit hb, test_eq_testBit hb] at hk
    obtain ⟨e1, e2⟩ :=
      div_eq_of_bounds bits w (w * bits + (bits - 1 - p)) (by omega) (by omega)
    rw [e1, e2] at hk
    have e3 : bits - 1 - (w * bits + (bits - 1 - p) - w * bits) = p := by omega
    rw [e3] at hk
    exact hk
  · rw [testBit_high (h1 w) (by omega), testBit_high (h2 w) (by omega)]

/-- C21: with `B` dividing `N` and `from < N`, let `r = find_first(from, !v)`.  Then
`swap_first(from, v)` run without interference returns `r`; if `r < N` the state it
leaves is the one `set(r, v)` produces on the state before, and that `set` returns true;
if `r == N` the state is the one before. -/
theorem swap_first_is_find_first_then_set (T_Size bits fuel : Nat) (m : Mem) (v : Bool)
    (from_ : Nat) (hb : 0 < bits) (hdvd : bits ∣ T_Size) (hm : WellTyped bits m)
    (hfrom : from_ < T_Size) (hf : 0 < fuel) :
    (swap_first2 T_Size bits m from_ v).ret = find_first T_Size bits m from_ (!v) ∧
      (find_first T_Size bits m from_ (!v) < T_Size →
        set bits fuel m (find_first T_Size bits m from_ (!v)) v =
          some (true, (swap_first2 T_Size bits m from_ v).m_data)) ∧
      (find_first T_Size bits m from_ (!v) = T_Size →
        (swap_first2 T_Size bits m from_ v).m_data = m) := by
  obtain ⟨f, rfl⟩ : ∃ f, fuel = f + 1 := ⟨fuel - 1, by omega⟩
  unfold swap_first2
  rcases swap_first_spec hb T_Size m v from_ T_Size hm hfrom with
    ⟨s1, s2, _, s4⟩ | ⟨j, s1, s2, s3, s4, s5, s6, s7⟩
  · rcases find_first_spec hb T_Size m (!v) from_ hdvd hfrom with
      ⟨f1, _⟩ | ⟨i, f1, f2, f3, _, _⟩
    · rw [s1, f1]
      exact ⟨rfl, fun h => by omega, fun _ => s2⟩
    · rw [s4 i f1 f2] at f3
      exact absurd f3 (bool_ne_not v)
  · rcases find_first_spec hb T_Size m (!v) from_ hdvd hfrom with
      ⟨_, f2⟩ | ⟨i, f1, f2, f3, f4, f5⟩
    · have := f2 j s1 s2
      rw [s3] at this
      exact absurd this (bool_ne_not (!v))
    · have hij : i = j := by
        rcases Nat.lt_trichotomy i j with hlt | heq | hgt
        · have := s4 i f1 hlt
          rw [f3] at this
          exact absurd this.symm (bool_ne_not v)
        · exact heq
        · have := f4 j s1 hgt
          rw [s3] at this
          exact absurd this (bool_ne_not (!v))
      subst hij
      rw [s5, f5]
      refine ⟨rfl, fun _ => ?_, fun h => by omega⟩
      obtain ⟨m2, e1, e2, e3, _⟩ := entry_set_spec hb f m i v hm
      have hmem : m2 = (swap_first T_Size bits m from_ v T_Size).m_data := by
        apply mem_eq_of_test_eq hb _ _ e2 s6
        intro k
        rw [e3, s7]
      have hret : (Entry.test bits m i != v) = true := by
        rw [f3]; cases v <;> rfl
      unfold set
      rw [e1, hret, hmem]

theorem swap_first_is_find_first_then_set_witness :
    0 < 8 ∧ 8 ∣ 16 ∧ WellTyped 8 (fun _ => 0xF0) ∧ 2 < 16 ∧ 0 < 1 ∧
      find_first 16 8 (fun _ => 0xF0) 2 (!true) = 4 ∧
      (swap_first2 16 8 (fun _ => 0xF0) 2 true).ret = find_first 16 8 (fun _ => 0xF0) 2 (!true) ∧
      (find_first 16 8 (fun _ => 0xF0) 2 (!true) < 16 →
        set 8 1 (fun _ => 0xF0) (find_first 16 8 (fun _ => 0xF0) 2 (!true)) true =
          some (true, (swap_first2 16 8 (fun _ => 0xF0) 2 true).m_data)) ∧
      (find_first 16 8 (fun _ => 0xF0) 2 (!true) = 16 →
        (swap_first2 16 8 (fun _ => 0xF0) 2 true).m_data = (fun _ => 0xF0)) :=
  ⟨by decide, by decide, wellTyped_const (by decide), by decide, by decide, by decide,
    swap_first_is_find_first_then_set 16 8 1 (fun _ => 0xF0) true 2 (by decide) (by decide)
      (wellTyped_const (by decide)) (by decide) (by decide)⟩

/-- `Bitset::all(idx, v)` with `idx < T_Size` and `bits` dividing `T_Size`: true exactly
when every bit of `[idx, T_Size)` is `v`. -/
theorem all_spec {bits : Nat} (hb : 0 < bits) (T_Size : Nat) (m : Mem) (v : Bool) (idx : Nat)
    (hdvd : bits ∣ T_Size) (hidx : idx < T_Size) :
    all T_Size bits m idx v = true ↔
      ∀ j, idx ≤ j → j < T_Size → Entry.test bits m j = v := by
  have hall : all T_Size bits m idx v =
      Entry.all_loop bits (if v then compl bits 0 else 0) m
        (T_Words T_Size bits - idx / bits) (idx / bits) (idx % bits)
        ((if v then compl bits 0 else 0) &&& Entry.mask_right bits (idx % bits)) := by
    unfold all Entry.all Entry.byte_index
    rw [if_neg (by omega), word_index_eq hb]
  obtain ⟨h1, h2⟩ := decomp hb idx
  have := all_loop_spec hb T_Size v m (T_Words T_Size bits - idx / bits) (idx / bits)
    (idx % bits) h2 rfl
  rw [← h1, ← hall, words_mul_bits hb hdvd] at this
  exact this

/-- C22: with `B` dividing `N` and `from < N`, `all(from, v)` returns true if and only
if `find_first(from, !v)` returns `npos`, that is `N`. -/
theorem all_iff_find_first_npos (T_Size bits : Nat) (m : Mem) (v : Bool) (from_ : Nat)
    (hb : 0 < bits) (hdvd : bits ∣ T_Size) (hfrom : from_ < T_Size) :
    all T_Size bits m from_ v = true ↔ find_first T_Size bits m from_ (!v) = npos T_Size := by
  rw [all_spec hb T_Size m v from_ hdvd hfrom]
  unfold npos
  rcases find_first_spec hb T_Size m (!v) from_ hdvd hfrom with
    ⟨f1, f2⟩ | ⟨i, f1, f2, f3, _, f5⟩
  · refine ⟨fun _ => f1, fun _ j j1 j2 => ?_⟩
    rw [f2 j j1 j2]
    cases v <;> rfl
  · constructor
    · intro h
      rw [h i f1 f2] at f3
      exact absurd f3 (bool_ne_not v)
    · intro h
      omega

theorem all_iff_find_first_npos_witness :
    0 < 8 ∧ 8 ∣ 16 ∧ 4 < 16 ∧
      (all 16 8 (fun _ => 0x0F) 4 true = true ↔
        find_first 16 8 (fun _ => 0x0F) 4 (!true) = npos 16) ∧
      all 16 8 (fun _ => 0x0F) 4 true = false ∧
      (all 16 8 (fun i => if i = 0 then 0x0F else 0xFF) 4 true = true ↔
        find_first 16 8 (fun i => if i = 0 then 0x0F else 0xFF) 4 (!true) = npos 16) ∧
      all 16 8 (fun i => if i = 0 then 0x0F else 0xFF) 4 true = true :=
  ⟨by decide, by decide, by decide,
    all_iff_find_first_npos 16 8 (fun _ => 0x0F) true 4 (by decide) (by decide) (by decide),
    by decide,
    all_iff_find_first_npos 16 8 (fun i => if i = 0 then 0x0F else 0xFF) true 4 (by decide)
      (by decide) (by decide),
    by decide⟩

end Bitset
